import Mathlib

/-!
Verification of the modular-polynomial core of the FF_Calculator repository.

The development shallowly embeds the Python sources
(modular_polynomial.py, calculator_engine.py, irreducible_finder.py):
polynomials over Z/pZ are a structure holding the coefficient modulus and the
coefficient list (constant term first), exactly as the Python class stores
them; every Python method becomes a Lean function on that structure, with
while loops rendered as fuel-indexed recursions whose fuel is provably
sufficient, and functions that can raise ValueError rendered with Except.
Semantic statements are made by mapping coefficient lists into
Polynomial (ZMod m) from Mathlib.
-/

set_option maxRecDepth 4000

namespace FFCalc

/-- Embedding of the ModularPolynomial class state: the coefficient modulus and
the stored coefficient list, constant term first (modular_polynomial.py). -/
structure ModularPolynomial where
  modulus : ℕ
  coefficients : List ℤ
deriving DecidableEq

/-- The effect of the constructor's while loop
(while raw_coefficients and raw_coefficients[-1] % modulus == 0: pop):
remove the maximal trailing run of entries divisible by the modulus. -/
def stripTrailing (modulus : ℕ) (raw : List ℤ) : List ℤ :=
  (raw.reverse.dropWhile (fun c => c % (modulus : ℤ) == 0)).reverse

/-- Embedding of ModularPolynomial.__init__: strip trailing entries that are
zero modulo the modulus, reduce every remaining entry modulo the modulus, and
represent the empty result by the single entry 0. -/
def mkPoly (modulus : ℕ) (raw : List ℤ) : ModularPolynomial :=
  let stripped := stripTrailing modulus raw
  { modulus := modulus
    coefficients :=
      if stripped = [] then [0] else stripped.map (fun x => x % (modulus : ℤ)) }

/-- The final state of the caller's raw coefficient list after the constructor
returns: the constructor pops trailing entries divisible by the modulus from
the caller's list in place, so the caller observes the stripped list. -/
def constructorRawAfter (modulus : ℕ) (raw : List ℤ) : List ℤ :=
  stripTrailing modulus raw

namespace ModularPolynomial

/-- Embedding of get_degree: length of the coefficient list minus one. -/
def get_degree (x : ModularPolynomial) : ℕ :=
  x.coefficients.length - 1

/-- Embedding of get_lead_coefficient: the last stored coefficient. -/
def get_lead_coefficient (x : ModularPolynomial) : ℤ :=
  x.coefficients.getLastD 0

/-- Embedding of get_copy: rebuild through the constructor from a copy of the
stored coefficients. -/
def get_copy (x : ModularPolynomial) : ModularPolynomial :=
  mkPoly x.modulus x.coefficients

/-- Embedding of get_negative: construct from modulus - c for each stored c. -/
def get_negative (x : ModularPolynomial) : ModularPolynomial :=
  mkPoly x.modulus (x.coefficients.map (fun c => (x.modulus : ℤ) - c))

/-- Embedding of is_zero: the stored list is exactly the single entry 0. -/
def is_zero (x : ModularPolynomial) : Bool :=
  x.coefficients == [0]

/-- Embedding of is_one: the stored list is exactly the single entry 1. -/
def is_one (x : ModularPolynomial) : Bool :=
  x.coefficients == [1]

/-- Embedding of is_constant: the stored list has exactly one entry. -/
def is_constant (x : ModularPolynomial) : Bool :=
  x.coefficients.length == 1

/-- Embedding of evaluate: Horner evaluation from the highest coefficient down,
reducing modulo the modulus at each step. -/
def evaluate (x : ModularPolynomial) (arg : ℤ) : ℤ :=
  x.coefficients.reverse.foldl (fun result c => (result * arg + c) % (x.modulus : ℤ)) 0

/-- Embedding of add_to: elementwise addition with zero padding; in negative
mode the second operand's entry c is replaced by modulus - c (and padding by
0), matching the Python branch. -/
def add_to (x other : ModularPolynomial) (negative : Bool) : ModularPolynomial :=
  let maxLen := max x.coefficients.length other.coefficients.length
  let newCoefficients := (List.range maxLen).map (fun i =>
    let a := x.coefficients.getD i 0
    let b := if negative then
               (if i < other.coefficients.length then
                  (x.modulus : ℤ) - other.coefficients.getD i 0
                else 0)
             else other.coefficients.getD i 0
    (a + b) % (x.modulus : ℤ))
  mkPoly x.modulus newCoefficients

/-- Embedding of add_one: add the constant polynomial 1. -/
def add_one (x : ModularPolynomial) : ModularPolynomial :=
  add_to x (mkPoly x.modulus [1]) false

/-- Embedding of subtract_from: x.subtract_from(other) returns other - x,
implemented as other.add_to(x, negative := true). -/
def subtract_from (x other : ModularPolynomial) : ModularPolynomial :=
  add_to other x true

/-- One in-place update of the Python product accumulator:
result[k] = (result[k] + v) % modulus. -/
def updateCell (modulus : ℕ) (res : List ℤ) (k : ℕ) (v : ℤ) : List ℤ :=
  res.set k ((res.getD k 0 + v) % (modulus : ℤ))

/-- The inner loop of product_with: for j, b in enumerate(other.coefficients),
update cell i + j by a * b. -/
def innerMulLoop (modulus : ℕ) (i : ℕ) (a : ℤ) :
    List ℤ → ℕ → List ℤ → List ℤ
  | [], _, res => res
  | b :: rest, j, res =>
      innerMulLoop modulus i a rest (j + 1) (updateCell modulus res (i + j) (a * b))

/-- The outer loop of product_with: for i, a in enumerate(self.coefficients),
run the inner loop over the other polynomial's coefficients. -/
def outerMulLoop (modulus : ℕ) (bs : List ℤ) :
    List ℤ → ℕ → List ℤ → List ℤ
  | [], _, res => res
  | a :: rest, i, res =>
      outerMulLoop modulus bs rest (i + 1) (innerMulLoop modulus i a bs 0 res)

/-- Embedding of product_with: schoolbook convolution into an accumulator of
length len(a) + len(b) - 1, then canonicalization by the constructor. -/
def product_with (x other : ModularPolynomial) : ModularPolynomial :=
  let degree := x.coefficients.length + other.coefficients.length - 1
  let result := outerMulLoop x.modulus other.coefficients x.coefficients 0
      (List.replicate degree 0)
  mkPoly x.modulus result

end ModularPolynomial

/-- Embedding of the DivisionResult container. -/
structure DivisionResult where
  quotient : ModularPolynomial
  remainder : ModularPolynomial
deriving DecidableEq

namespace ModularPolynomial

/-- One iteration of the divided_by while loop: build the quotient term from
the leading coefficients (inverting the divisor's lead by Fermat), add it to
the quotient and subtract its product with the divisor from the remainder.
The modulus argument is the dividend's modulus, as in the source. -/
def divisionStep (m : ℕ) (other quotient remainder : ModularPolynomial) :
    ModularPolynomial × ModularPolynomial :=
  let qtDegree := remainder.get_degree - other.get_degree
  let otherLeadInverse := (other.get_lead_coefficient ^ (m - 2)) % (m : ℤ)
  let qtCoefficient := remainder.get_lead_coefficient * otherLeadInverse
  let quotientTerm := mkPoly m (List.replicate qtDegree 0 ++ [qtCoefficient])
  let intermediateExpression := product_with other quotientTerm
  (add_to quotient quotientTerm false, subtract_from intermediateExpression remainder)

/-- The divided_by while loop, indexed by fuel; the loop body runs while the
remainder has degree at least the divisor's and is not zero. -/
def divisionLoop (m : ℕ) (other : ModularPolynomial) :
    ℕ → ModularPolynomial → ModularPolynomial → ModularPolynomial × ModularPolynomial
  | 0, quotient, remainder => (quotient, remainder)
  | fuel + 1, quotient, remainder =>
      if other.get_degree ≤ remainder.get_degree ∧ remainder.is_zero = false then
        let s := divisionStep m other quotient remainder
        divisionLoop m other fuel s.1 s.2
      else (quotient, remainder)

/-- Embedding of divided_by (the division computation after its argument
checks): quotient starts as the zero polynomial and the remainder as a copy of
the dividend.  The fuel get_degree + 1 bounds the number of loop iterations,
which is proved sufficient below for a prime modulus. -/
def divided_by (x other : ModularPolynomial) : DivisionResult :=
  let r := divisionLoop x.modulus other (x.get_degree + 1) (mkPoly x.modulus [0]) (get_copy x)
  ⟨r.1, r.2⟩

/-- Embedding of divided_by including its ValueError checks: mismatched moduli
and division by a polynomial whose coefficients are empty or all zero. -/
def divided_by_checked (x other : ModularPolynomial) : Except String DivisionResult :=
  if x.modulus ≠ other.modulus then
    .error "Polynomials must have the same modulus [Division]"
  else if other.coefficients.isEmpty || other.coefficients.all (fun c => c == 0) then
    .error "Cannot divide by zero polynomial"
  else
    .ok (divided_by x other)

end ModularPolynomial

/-! ## irreducible_finder.py -/

open ModularPolynomial

/-- Embedding of the PRIME_FACTORS table (keys 1..12; missing keys raise in
Python and are mapped to the empty list, which no caller reaches). -/
def PRIME_FACTORS : ℕ → List ℕ
  | 1 => [1]
  | 2 => [2]
  | 3 => [3]
  | 4 => [2]
  | 5 => [5]
  | 6 => [2, 3]
  | 7 => [7]
  | 8 => [2]
  | 9 => [3]
  | 10 => [2, 5]
  | 11 => [11]
  | 12 => [2, 3]
  | _ => []

/-- The while loop of compute_large_exponent_of_x, indexed by fuel.  State:
the active expression, the power it represents, and the record of previously
computed (expression, power) pairs.  When doubling would overshoot, the record
is searched from the most recent entry backwards for the largest power that
still fits; otherwise the active expression is squared and recorded.  Either
way the result is reduced by the modulus polynomial when its degree reaches
the modulus polynomial's degree d. -/
def expLoop (d : ℕ) (modulusPolynomial : ModularPolynomial) (targetPower : ℕ) :
    ℕ → ModularPolynomial → ℕ → List (ModularPolynomial × ℕ) → ModularPolynomial
  | 0, active, _, _ => active
  | fuel + 1, active, power, record =>
      if power < targetPower then
        if targetPower < 2 * power then
          match record.reverse.find? (fun e => e.2 ≤ targetPower - power) with
          | some e =>
              let a1 := product_with active e.1
              let a2 := if d ≤ a1.get_degree then (divided_by a1 modulusPolynomial).remainder else a1
              expLoop d modulusPolynomial targetPower fuel a2 (power + e.2) record
          | none => active
        else
          let a1 := product_with active active
          let a2 := if d ≤ a1.get_degree then (divided_by a1 modulusPolynomial).remainder else a1
          expLoop d modulusPolynomial targetPower fuel a2 (2 * power)
            (record ++ [(get_copy a2, 2 * power)])
      else active

/-- Embedding of compute_large_exponent_of_x: start from the polynomial x with
power 1 and the record holding (x, 1); the fuel targetPower bounds the loop,
whose tracked power strictly increases every iteration. -/
def compute_large_exponent_of_x (targetPower : ℕ)
    (modulusPolynomial : ModularPolynomial) : ModularPolynomial :=
  let p := modulusPolynomial.modulus
  let d := modulusPolynomial.get_degree
  let active := mkPoly p [0, 1]
  expLoop d modulusPolynomial targetPower targetPower active 1 [(get_copy active, 1)]

/-- The N-fold iterated product x * x * ... * x of the specification's
brute-force description of exponentiation (the reference value of the claim
about compute_large_exponent_of_x); kept solely to compare against the fast
exponentiation. -/
def iterX (p : ℕ) : ℕ → ModularPolynomial
  | 0 => mkPoly p [1]
  | 1 => mkPoly p [0, 1]
  | n + 2 => product_with (iterX p (n + 1)) (mkPoly p [0, 1])

/-- Embedding of itertools.product(range(m), repeat = k): all coefficient
tuples of length k with entries in 0..m-1, first coordinate slowest. -/
def coefficientTuples (m : ℕ) : ℕ → List (List ℤ)
  | 0 => [[]]
  | k + 1 => (List.range m).flatMap (fun a => (coefficientTuples m k).map (fun t => ((a : ℤ)) :: t))

/-- Embedding of check_non_prime_power_degree: for degree 1 and degree 2,
enumerate every monic polynomial of that degree (lower coefficients ranging
over all tuples, leading coefficient 1) and report False exactly when some
enumerated polynomial divides the input. -/
def check_non_prime_power_degree (poly : ModularPolynomial) : Bool :=
  [1, 2].all (fun degree =>
    ((coefficientTuples poly.modulus degree).map (fun coeffs => coeffs ++ [(1 : ℤ)])).all
      (fun potentialDivisorCoefficients =>
        !(divided_by poly (mkPoly poly.modulus potentialDivisorCoefficients)).remainder.is_zero))

/-- Embedding of check_if_low_degree_irreducible: degree 0 is irreducible iff
the constant is nonzero, degree 1 always, degree 2 or 3 iff the polynomial has
no root in Z/pZ (the Python function returns None, here false, on any other
degree, which no caller reaches). -/
def check_if_low_degree_irreducible (poly : ModularPolynomial) (deg : ℕ) : Bool :=
  if deg = 0 then poly.coefficients.getD 0 0 != 0
  else if deg = 1 then true
  else if deg = 2 ∨ deg = 3 then
    (List.range poly.modulus).all (fun x => poly.evaluate (x : ℤ) != 0)
  else false

/-- Embedding of check_if_high_degree_irreducible (the modified Rabin test):
x to the power p^deg must reduce to x modulo the input, and for every prime r
dividing deg, x to the power p^(deg / r) must not. -/
def check_if_high_degree_irreducible (poly : ModularPolynomial) (deg : ℕ) : Bool :=
  let standardPoly := mkPoly poly.modulus [0, 1]
  let power := poly.modulus ^ deg
  let firstCheck := compute_large_exponent_of_x power poly
  if firstCheck ≠ standardPoly then false
  else (PRIME_FACTORS deg).all (fun r =>
    decide (compute_large_exponent_of_x (poly.modulus ^ (deg / r)) poly ≠ standardPoly))

/-- The degree-dispatched part of check_if_irreducible before the fallback:
the direct test for degree at most 3, the Rabin-style test otherwise. -/
def baseDegreeCheck (poly : ModularPolynomial) (deg : ℕ) : Bool :=
  if deg ≤ 3 then check_if_low_degree_irreducible poly deg
  else check_if_high_degree_irreducible poly deg

/-- Embedding of check_if_irreducible: run the degree-dispatched test, then
for degree 6, 10 or 12 additionally run the low-degree trial-division
fallback. -/
def check_if_irreducible (poly : ModularPolynomial) : Bool :=
  let deg := poly.get_degree
  if baseDegreeCheck poly deg = false then false
  else if deg = 6 ∨ deg = 10 ∨ deg = 12 then check_non_prime_power_degree poly
  else true

/-- The while loop of check_if_primitive, indexed by fuel: multiply by num
modulo the prime until the value returns to 1, counting the steps. -/
def primitiveLoop (primeModulus num : ℕ) : ℕ → ℕ → ℕ → ℕ
  | 0, _, order => order
  | fuel + 1, currentValue, order =>
      if currentValue ≠ 1 then
        primitiveLoop primeModulus num fuel ((currentValue * num) % primeModulus) (order + 1)
      else order

/-- Embedding of check_if_primitive: num is primitive iff its multiplicative
order equals primeModulus - 1.  The fuel primeModulus + 1 exceeds any genuine
order, and on exhaustion the returned count exceeds primeModulus, so a
diverging run is never reported primitive. -/
def check_if_primitive (num primeModulus : ℕ) : Bool :=
  primitiveLoop primeModulus num (primeModulus + 1) num 1 == primeModulus - 1

/-- Embedding of find_irreducible_trinomial: enumerate constants (primitive
elements first, then 1), middle coefficients y in 1..p-1 and middle positions
z in 1..degree-1, returning the first trinomial passing check_if_irreducible;
none when the search is exhausted (the Python function then returns None). -/
def find_irreducible_trinomial (characteristic degree : ℕ) : Option ModularPolynomial :=
  let primitiveElements :=
    (List.range' 1 (characteristic - 1)).filter (fun x => check_if_primitive x characteristic)
  let leadingTerm : ℤ := 1
  (primitiveElements ++ [1]).findSome? (fun constant =>
    (List.range' 1 (characteristic - 1)).findSome? (fun y =>
      (List.range' 1 (degree - 1)).findSome? (fun z =>
        let lowerTermZeros := List.replicate (z - 1) (0 : ℤ)
        let higherTermZeros := List.replicate (degree - z - 1) (0 : ℤ)
        let coefficientSet :=
          [(constant : ℤ)] ++ lowerTermZeros ++ [(y : ℤ)] ++ higherTermZeros ++ [leadingTerm]
        let polynomial := mkPoly characteristic coefficientSet
        if check_if_irreducible polynomial then some polynomial else none)))

/-- Embedding of find_irreducible: degree 1 returns x directly, characteristic
2 with degree 8 returns the hardcoded nine-term polynomial, every other case
runs the trinomial search. -/
def find_irreducible (characteristic degree : ℕ) : Option ModularPolynomial :=
  if degree = 1 then some (mkPoly characteristic [0, 1])
  else if characteristic = 2 ∧ degree = 8 then
    some (mkPoly 2 [1, 1, 0, 0, 0, 0, 1, 1, 1])
  else find_irreducible_trinomial characteristic degree

/-! ## calculator_engine.py -/

/-- Embedding of the PRIME_LIST of supported characteristics. -/
def PRIME_LIST : List ℕ :=
  [2, 3, 5, 7, 11, 13, 17, 19, 23, 29, 31, 37, 41, 43, 47, 53, 59, 61, 67, 71,
   73, 79, 83, 89, 97, 101]

/-- Embedding of the FieldOperation enumeration. -/
inductive FieldOperation where
  | ADD
  | SUBTRACT
  | MULTIPLY
  | DIVIDE
deriving DecidableEq

/-- Embedding of the FiniteFieldCalculator state after construction: the prime
characteristic and the irreducible modulus polynomial obtained from
find_irreducible. -/
structure FiniteFieldCalculator where
  prime_modulus : ℕ
  polynomial_modulus : ModularPolynomial
deriving DecidableEq

namespace FiniteFieldCalculator

/-- Embedding of _reduce_by_modulus: remainder upon division by the field's
modulus polynomial (propagating divided_by's errors). -/
def reduce_by_modulus (fieldCalc : FiniteFieldCalculator) (poly : ModularPolynomial) :
    Except String ModularPolynomial :=
  (divided_by_checked poly fieldCalc.polynomial_modulus).map (fun r => r.remainder)

/-- Embedding of _find_constant_inverse: raise the constant term to the power
prime_modulus - 2 and rebuild through the constructor. -/
def find_constant_inverse (fieldCalc : FiniteFieldCalculator) (polynomial : ModularPolynomial) :
    ModularPolynomial :=
  mkPoly fieldCalc.prime_modulus [polynomial.coefficients.getD 0 0 ^ (fieldCalc.prime_modulus - 2)]

/-- The while loop of _compute_euclidean_sequence, indexed by fuel: divide,
record quotient and remainder, and continue with (divisor, remainder) until
the remainder is constant.  The recursion produces the quotient and remainder
lists in the order the Python loop appends them. -/
def euclideanLoop : ℕ → ModularPolynomial → ModularPolynomial →
    Except String (List ModularPolynomial × List ModularPolynomial)
  | 0, _, _ => .ok ([], [])
  | fuel + 1, dividend, divisor => do
      let divisionResult ← divided_by_checked dividend divisor
      if divisionResult.remainder.is_constant then
        .ok ([divisionResult.quotient], [divisionResult.remainder])
      else do
        let rest ← euclideanLoop fuel divisor divisionResult.remainder
        .ok (divisionResult.quotient :: rest.1, divisionResult.remainder :: rest.2)

/-- Embedding of _compute_euclidean_sequence, starting from the field modulus
as dividend and the input polynomial as divisor.  The fuel bounds the number
of iterations, which is proved sufficient below. -/
def compute_euclidean_sequence (fieldCalc : FiniteFieldCalculator)
    (polynomial : ModularPolynomial) :
    Except String (List ModularPolynomial × List ModularPolynomial) :=
  euclideanLoop (polynomial.get_degree + fieldCalc.polynomial_modulus.get_degree + 2)
    fieldCalc.polynomial_modulus polynomial

/-- The for loop of _compute_expression_from_sequence, indexed by the number
of remaining indices: append Q[x] * E[x-1] subtracted from E[x-2]. -/
def exprLoop (m : ℕ) (quotientList : List ModularPolynomial) :
    ℕ → ℕ → List ModularPolynomial → List ModularPolynomial
  | 0, _, expressions => expressions
  | n + 1, x, expressions =>
      let dummy : ModularPolynomial := ⟨m, [0]⟩
      let productPoly := product_with (quotientList.getD x dummy) (expressions.getD (x - 1) dummy)
      exprLoop m quotientList n (x + 1)
        (expressions ++ [subtract_from productPoly (expressions.getD (x - 2) dummy)])

/-- Embedding of _compute_expression_from_sequence: seed the intermediate
expressions with the negation of the first quotient and, when a second
quotient exists, with their product plus one; then run the recurrence loop for
indices 2 to remainderCount - 1 and return the last expression.  The modulus
argument only instantiates the out-of-range placeholder, which no in-range run
touches. -/
def expressionList (m : ℕ) (quotientList : List ModularPolynomial)
    (remainderCount : ℕ) : List ModularPolynomial :=
  let dummy : ModularPolynomial := ⟨m, [0]⟩
  let e0 := [get_negative (quotientList.getD 0 dummy)]
  let e1 := if 1 < quotientList.length then
      e0 ++ [add_one (product_with (quotientList.getD 0 dummy) (quotientList.getD 1 dummy))]
    else e0
  exprLoop m quotientList (remainderCount - 2) 2 e1

def compute_expression_from_sequence (m : ℕ) (quotientList : List ModularPolynomial)
    (remainderCount : ℕ) : ModularPolynomial :=
  (expressionList m quotientList remainderCount).getLastD ⟨m, [0]⟩

/-- Embedding of find_multiplicative_inverse: error on the zero polynomial,
Fermat inversion for constants, and otherwise the extended Euclidean
computation: Euclidean sequence, Fermat inverse of the final constant
remainder, Bezout expression from the quotients, reduction by the field
modulus, and the final scaling product. -/
def find_multiplicative_inverse (fieldCalc : FiniteFieldCalculator)
    (polynomial : ModularPolynomial) : Except String ModularPolynomial :=
  if polynomial.is_zero then .error "Zero polynomial does not have an inverse"
  else if polynomial.is_constant then .ok (fieldCalc.find_constant_inverse polynomial)
  else do
    let seqs ← fieldCalc.compute_euclidean_sequence polynomial
    let dummy : ModularPolynomial := ⟨fieldCalc.prime_modulus, [0]⟩
    let finalConstantInverse := fieldCalc.find_constant_inverse (seqs.2.getLastD dummy)
    let initialExpression :=
      compute_expression_from_sequence fieldCalc.prime_modulus seqs.1 seqs.2.length
    let reducedExpression ← fieldCalc.reduce_by_modulus initialExpression
    .ok (product_with reducedExpression finalConstantInverse)

/-- Embedding of handle_operation: lift both coefficient vectors through the
constructor, then dispatch on the operation; division checks for a zero second
operand before inverting it. -/
def handle_operation (fieldCalc : FiniteFieldCalculator)
    (coefficientSet0 coefficientSet1 : List ℤ) (op : FieldOperation) :
    Except String ModularPolynomial :=
  let polynomial0 := mkPoly fieldCalc.prime_modulus coefficientSet0
  let polynomial1 := mkPoly fieldCalc.prime_modulus coefficientSet1
  match op with
  | .ADD => .ok (add_to polynomial0 polynomial1 false)
  | .SUBTRACT => .ok (subtract_from polynomial1 polynomial0)
  | .MULTIPLY => fieldCalc.reduce_by_modulus (product_with polynomial0 polynomial1)
  | .DIVIDE =>
      if polynomial1.is_zero then .error "Cannot divide by zero polynomial"
      else do
        let polynomial1Inverse ← fieldCalc.find_multiplicative_inverse polynomial1
        fieldCalc.reduce_by_modulus (product_with polynomial0 polynomial1Inverse)

end FiniteFieldCalculator

/-! ## Semantics: coefficient lists as elements of Polynomial (ZMod m) -/

/-- The recurrence loop exactly as the specification document words it
(step 3 of the inverse procedure): the new expression is
q_i times s_(i-1) minus s_(i-2), the reverse subtraction order from the
implementation.  Kept solely to compare against the implemented recurrence. -/
def specExprLoop (m : ℕ) (quotientList : List ModularPolynomial) :
    ℕ → ℕ → List ModularPolynomial → List ModularPolynomial
  | 0, _, expressions => expressions
  | n + 1, x, expressions =>
      let dummy : ModularPolynomial := ⟨m, [0]⟩
      let productPoly := ModularPolynomial.product_with (quotientList.getD x dummy)
        (expressions.getD (x - 1) dummy)
      specExprLoop m quotientList n (x + 1)
        (expressions ++ [ModularPolynomial.subtract_from (expressions.getD (x - 2) dummy)
          productPoly])

/-- The Bezout coefficient as the specification document describes it, with
the same seeds as the implementation but the recurrence
s_i = q_i * s_(i-1) - s_(i-2).  Kept solely to compare against the
implemented compute_expression_from_sequence. -/
def specExpressionFromSequence (m : ℕ) (quotientList : List ModularPolynomial)
    (remainderCount : ℕ) : ModularPolynomial :=
  let dummy : ModularPolynomial := ⟨m, [0]⟩
  let e0 := [ModularPolynomial.get_negative (quotientList.getD 0 dummy)]
  let e1 := if 1 < quotientList.length then
      e0 ++ [ModularPolynomial.add_one (ModularPolynomial.product_with
        (quotientList.getD 0 dummy) (quotientList.getD 1 dummy))]
    else e0
  (specExprLoop m quotientList (remainderCount - 2) 2 e1).getLastD dummy

/-- Interpret a coefficient list (constant term first) as a polynomial over
ZMod m, in Horner form. -/
noncomputable def ofList (m : ℕ) : List ℤ → Polynomial (ZMod m)
  | [] => 0
  | c :: cs => Polynomial.C (c : ZMod m) + Polynomial.X * ofList m cs

/-- Interpret a ModularPolynomial value as a polynomial over ZMod m. -/
noncomputable def toPZ (m : ℕ) (x : ModularPolynomial) : Polynomial (ZMod m) :=
  ofList m x.coefficients

/-- The canonical-form invariant of constructed polynomials: a nonempty
coefficient list, every entry in the interval from 0 to the modulus, and no
trailing zero except for the zero polynomial's single entry. -/
def Canonical (x : ModularPolynomial) : Prop :=
  x.coefficients ≠ [] ∧
  (∀ c ∈ x.coefficients, 0 ≤ c ∧ c < (x.modulus : ℤ)) ∧
  (x.coefficients = [0] ∨ x.coefficients.getLastD 0 ≠ 0)

instance (x : ModularPolynomial) : Decidable (Canonical x) := by
  unfold Canonical
  infer_instance

/-- The chaining structure of _compute_euclidean_sequence: each entry divides
the previous dividend by the previous divisor, the loop continues on
(divisor, remainder) while the remainder is not constant, and the recorded
lists collect the quotients and remainders in order. -/
inductive EuclChain : ModularPolynomial → ModularPolynomial → List ModularPolynomial →
    List ModularPolynomial → Prop
  | last (dividend divisor q r : ModularPolynomial) :
      dividend.divided_by divisor = ⟨q, r⟩ → r.is_constant = true →
      EuclChain dividend divisor [q] [r]
  | step (dividend divisor q r : ModularPolynomial)
      (qs rs : List ModularPolynomial) :
      dividend.divided_by divisor = ⟨q, r⟩ → r.is_constant = false →
      EuclChain divisor r qs rs →
      EuclChain dividend divisor (q :: qs) (r :: rs)

/-- The two-seed backward-substitution fold: processing quotient t maps the
window (a, b) to (b, a - t * b).  With seeds (1, 0) and (0, 1) the second
components are the Bezout coefficients of the original dividend and divisor
respectively. -/
noncomputable def bezoutFold (m : ℕ) :
    Polynomial (ZMod m) × Polynomial (ZMod m) → List (Polynomial (ZMod m)) →
      Polynomial (ZMod m) × Polynomial (ZMod m)
  | ab, [] => ab
  | (a, b), t :: Q => bezoutFold m (b, a - t * b) Q


open Polynomial

theorem ofList_coeff (m : ℕ) (l : List ℤ) (i : ℕ) :
    (ofList m l).coeff i = ((l.getD i 0 : ℤ) : ZMod m) := by
  induction l generalizing i with
  | nil => simp [ofList]
  | cons c cs ih =>
      cases i with
      | zero => simp [ofList, Polynomial.mul_coeff_zero]
      | succ n =>
          simp only [ofList, Polynomial.coeff_add, Polynomial.coeff_X_mul, ih,
            List.getD_cons_succ]
          rw [Polynomial.coeff_C]
          simp

theorem intCast_emod (m : ℕ) (a : ℤ) :
    (((a % (m : ℤ)) : ℤ) : ZMod m) = (a : ZMod m) := by
  conv_rhs => rw [← Int.emod_add_ediv a (m : ℤ)]
  push_cast
  rw [ZMod.natCast_self m]
  ring

theorem dropWhile_head_false {α : Type} (p : α → Bool)
    (l : List α) (h : l.dropWhile p ≠ []) : p ((l.dropWhile p).head h) = false :=
  List.head_dropWhile_not p l h

theorem getD_map_of_lt (f : ℤ → ℤ) :
    ∀ (l : List ℤ) (i : ℕ), i < l.length → (l.map f).getD i 0 = f (l.getD i 0) := by
  intro l
  induction l with
  | nil => intro i h; simp at h
  | cons a t ih =>
      intro i h
      cases i with
      | zero => simp
      | succ n =>
          simp only [List.map_cons, List.getD_cons_succ]
          exact ih n (by simpa using h)

/-- Decomposition of the constructor's stripping: the original raw list is the
stripped list followed by a run of entries that are zero modulo the modulus. -/
theorem stripTrailing_decomp (m : ℕ) (raw : List ℤ) :
    ∃ t, stripTrailing m raw ++ t = raw ∧ ∀ c ∈ t, c % (m : ℤ) = 0 := by
  refine ⟨(raw.reverse.takeWhile (fun c => c % (m : ℤ) == 0)).reverse, ?_, ?_⟩
  · have h : raw.reverse.takeWhile (fun c : ℤ => c % (m : ℤ) == 0) ++
        raw.reverse.dropWhile (fun c : ℤ => c % (m : ℤ) == 0) = raw.reverse :=
      List.takeWhile_append_dropWhile _ _
    have h5 := congrArg List.reverse h.symm
    rw [List.reverse_reverse, List.reverse_append] at h5
    rw [stripTrailing]
    exact h5.symm
  · intro c hc
    have hc' : c ∈ raw.reverse.takeWhile (fun c => c % (m : ℤ) == 0) := by
      simpa using hc
    have := List.mem_takeWhile_imp hc'
    simpa using this

theorem castZMod_eq_zero_of_emod (m : ℕ) (c : ℤ) (h : c % (m : ℤ) = 0) :
    (c : ZMod m) = 0 := by
  rw [← intCast_emod m c, h]
  simp

theorem getLastD_map (f : ℤ → ℤ) (l : List ℤ) (h : l ≠ []) :
    (l.map f).getLastD 0 = f (l.getLastD 0) := by
  rw [List.getLastD_eq_getLast?, List.getLastD_eq_getLast?, List.getLast?_map,
    List.getLast?_eq_getLast l h]
  rfl

theorem stripTrailing_last (m : ℕ) (raw : List ℤ)
    (h : stripTrailing m raw ≠ []) :
    (stripTrailing m raw).getLastD 0 % (m : ℤ) ≠ 0 := by
  have h' : raw.reverse.dropWhile (fun c => c % (m : ℤ) == 0) ≠ [] := by
    intro hcon
    apply h
    simp [stripTrailing, hcon]
  have hhead := dropWhile_head_false (fun c : ℤ => c % (m : ℤ) == 0) raw.reverse h'
  have hlast : (stripTrailing m raw).getLastD 0 =
      (raw.reverse.dropWhile (fun c => c % (m : ℤ) == 0)).head h' := by
    rw [stripTrailing, List.getLastD_eq_getLast?, List.getLast?_reverse,
      List.head?_eq_head h']
    rfl
  rw [hlast]
  intro hz
  rw [show ((raw.reverse.dropWhile (fun c => c % (m : ℤ) == 0)).head h' % (m : ℤ)) = 0 from hz] at hhead
  simp at hhead

end FFCalc


namespace FFCalc

open Polynomial

theorem getD_mem_of_lt (l : List ℤ) (i : ℕ) (h : i < l.length) : l.getD i 0 ∈ l := by
  rw [List.getD_eq_getElem l 0 h]
  exact List.getElem_mem h

theorem canonical_mkPoly (m : ℕ) (raw : List ℤ) (hm : 1 ≤ m) :
    Canonical (mkPoly m raw) := by
  have hm0 : (0 : ℤ) < (m : ℤ) := by exact_mod_cast hm
  by_cases hs : stripTrailing m raw = []
  · refine ⟨?_, ?_, ?_⟩ <;> simp [mkPoly, hs, hm0]
  · have hcoeffs : (mkPoly m raw).coefficients =
        (stripTrailing m raw).map (fun x => x % (m : ℤ)) := by
      simp [mkPoly, hs]
    refine ⟨?_, ?_, ?_⟩
    · rw [hcoeffs]
      simpa using hs
    · intro c hc
      rw [hcoeffs] at hc
      obtain ⟨a, _, rfl⟩ := List.mem_map.1 hc
      exact ⟨Int.emod_nonneg a (by positivity), Int.emod_lt_of_pos a hm0⟩
    · right
      rw [hcoeffs, getLastD_map _ _ hs]
      exact stripTrailing_last m raw hs

theorem toPZ_mkPoly (m : ℕ) (raw : List ℤ) :
    toPZ m (mkPoly m raw) = ofList m raw := by
  obtain ⟨t, ht, htz⟩ := stripTrailing_decomp m raw
  apply Polynomial.ext
  intro i
  rw [toPZ, ofList_coeff, ofList_coeff]
  by_cases hs : stripTrailing m raw = []
  · have hraw : raw = t := by rw [← ht, hs]; rfl
    have hleft : (mkPoly m raw).coefficients = [0] := by simp [mkPoly, hs]
    rw [hleft, hraw]
    by_cases hit : i < t.length
    · rw [castZMod_eq_zero_of_emod m _ (htz _ (getD_mem_of_lt t i hit))]
      cases i <;> simp
    · rw [List.getD_eq_default _ _ (Nat.le_of_not_lt hit)]
      cases i <;> simp
  · have hcoeffs : (mkPoly m raw).coefficients =
        (stripTrailing m raw).map (fun x => x % (m : ℤ)) := by
      simp [mkPoly, hs]
    rw [hcoeffs]
    by_cases hil : i < (stripTrailing m raw).length
    · have hgd : raw.getD i 0 = (stripTrailing m raw).getD i 0 := by
        conv_lhs => rw [← ht]
        exact List.getD_append _ _ _ _ hil
      rw [getD_map_of_lt _ _ _ hil, intCast_emod, hgd]
    · have hle : (stripTrailing m raw).length ≤ i := Nat.le_of_not_lt hil
      have hgd : raw.getD i 0 = t.getD (i - (stripTrailing m raw).length) 0 := by
        conv_lhs => rw [← ht]
        exact List.getD_append_right _ _ _ _ hle
      rw [List.getD_eq_default _ _ (by simpa using hle), hgd]
      by_cases hit : i - (stripTrailing m raw).length < t.length
      · rw [castZMod_eq_zero_of_emod m _ (htz _ (getD_mem_of_lt t _ hit))]
        try simp
      · rw [List.getD_eq_default _ _ (Nat.le_of_not_lt hit)]
        try simp

theorem mkPoly_canonical_fixed (x : ModularPolynomial) (hx : Canonical x) :
    mkPoly x.modulus x.coefficients = x := by
  cases x with
  | mk mo co =>
      obtain ⟨hne, hbd, hlast⟩ := hx
      simp only at hne hbd hlast ⊢
      by_cases h0 : co = [0]
      · subst h0
        have hstrip : stripTrailing mo [0] = [] := by
          rw [stripTrailing]
          simp [List.dropWhile]
        simp [mkPoly, hstrip]
      · have hl : co.getLastD 0 ≠ 0 := by
          rcases hlast with h | h
          · exact absurd h h0
          · exact h
        have hmem : co.getLastD 0 ∈ co := by
          rw [List.getLastD_eq_getLast?, List.getLast?_eq_getLast _ hne]
          simp only [Option.getD_some]
          exact List.getLast_mem hne
        obtain ⟨hge, hlt⟩ := hbd _ hmem
        have hstrip : stripTrailing mo co = co := by
          rw [stripTrailing]
          have hrw : co.reverse.dropWhile (fun c => c % (mo : ℤ) == 0) = co.reverse := by
            cases hrev : co.reverse with
            | nil =>
                exact absurd (by simpa using congrArg List.reverse hrev) hne
            | cons a t =>
                have hha : a = co.getLastD 0 := by
                  rw [List.getLastD_eq_getLast?, ← List.head?_reverse, hrev]
                  rfl
                rw [List.dropWhile_cons]
                have hcond : ¬ (a % (mo : ℤ) == 0) = true := by
                  simp only [beq_iff_eq]
                  rw [hha, Int.emod_eq_of_lt hge hlt]
                  exact hl
                simp [hcond]
          rw [hrw, List.reverse_reverse]
        have hmap : co.map (fun c => c % (mo : ℤ)) = co := by
          conv_rhs => rw [← List.map_id co]
          apply List.map_congr_left
          intro a ha
          obtain ⟨h1, h2⟩ := hbd a ha
          simpa using Int.emod_eq_of_lt h1 h2
        simp [mkPoly, hstrip, hmap, hne]

theorem toPZ_coeff (m : ℕ) (x : ModularPolynomial) (i : ℕ) :
    (toPZ m x).coeff i = ((x.coefficients.getD i 0 : ℤ) : ZMod m) :=
  ofList_coeff m x.coefficients i

theorem getD_range_map (f : ℕ → ℤ) (n i : ℕ) :
    ((List.range n).map f).getD i 0 = if i < n then f i else 0 := by
  by_cases h : i < n
  · rw [if_pos h]
    have hlen : i < ((List.range n).map f).length := by simpa using h
    rw [List.getD_eq_getElem _ 0 hlen]
    simp
  · rw [if_neg h]
    exact List.getD_eq_default _ _ (by simpa using Nat.le_of_not_lt h)

theorem toPZ_add_to (x y : ModularPolynomial) (neg : Bool) :
    toPZ x.modulus (ModularPolynomial.add_to x y neg) =
      if neg then toPZ x.modulus x - toPZ x.modulus y
      else toPZ x.modulus x + toPZ x.modulus y := by
  rw [ModularPolynomial.add_to, toPZ_mkPoly]
  apply Polynomial.ext
  intro i
  rw [ofList_coeff, getD_range_map]
  by_cases hi : i < max x.coefficients.length y.coefficients.length
  · rw [if_pos hi]
    simp only
    rw [intCast_emod]
    push_cast
    cases neg with
    | false =>
        simp only [Bool.false_eq_true, if_false]
        rw [Polynomial.coeff_add, toPZ_coeff, toPZ_coeff]
        try push_cast
        try ring
    | true =>
        simp only [if_true]
        rw [Polynomial.coeff_sub, toPZ_coeff, toPZ_coeff]
        by_cases hy : i < y.coefficients.length
        · rw [if_pos hy]
          rw [ZMod.natCast_self x.modulus]
          ring
        · rw [if_neg hy]
          rw [List.getD_eq_default _ _ (Nat.le_of_not_lt hy)]
          push_cast
          ring
  · rw [if_neg hi]
    have hx : x.coefficients.length ≤ i := by omega
    have hy : y.coefficients.length ≤ i := by omega
    cases neg with
    | false =>
        simp only [Bool.false_eq_true, if_false]
        rw [Polynomial.coeff_add, toPZ_coeff, toPZ_coeff,
          List.getD_eq_default _ _ hx, List.getD_eq_default _ _ hy]
        simp
    | true =>
        simp only [if_true]
        rw [Polynomial.coeff_sub, toPZ_coeff, toPZ_coeff,
          List.getD_eq_default _ _ hx, List.getD_eq_default _ _ hy]
        simp

theorem toPZ_get_negative (x : ModularPolynomial) :
    toPZ x.modulus (ModularPolynomial.get_negative x) = - toPZ x.modulus x := by
  rw [ModularPolynomial.get_negative, toPZ_mkPoly]
  apply Polynomial.ext
  intro i
  rw [ofList_coeff, Polynomial.coeff_neg, toPZ_coeff]
  by_cases hi : i < x.coefficients.length
  · rw [getD_map_of_lt _ _ _ hi]
    push_cast
    rw [ZMod.natCast_self x.modulus]
    ring
  · rw [List.getD_eq_default _ _ (by simpa using Nat.le_of_not_lt hi),
      List.getD_eq_default _ _ (Nat.le_of_not_lt hi)]
    simp

theorem toPZ_add_one (x : ModularPolynomial) :
    toPZ x.modulus (ModularPolynomial.add_one x) = toPZ x.modulus x + 1 := by
  rw [ModularPolynomial.add_one, toPZ_add_to]
  simp only [Bool.false_eq_true, if_false]
  congr 1
  rw [toPZ_mkPoly]
  apply Polynomial.ext
  intro i
  rw [ofList_coeff]
  cases i with
  | zero => simp
  | succ n => simp [List.getD, Polynomial.coeff_one]

theorem toPZ_subtract_from (x y : ModularPolynomial) :
    toPZ y.modulus (ModularPolynomial.subtract_from x y) =
      toPZ y.modulus y - toPZ y.modulus x := by
  rw [ModularPolynomial.subtract_from, toPZ_add_to]
  simp

theorem getD_set (l : List ℤ) (k : ℕ) (v : ℤ) (i : ℕ) (hk : k < l.length) :
    (l.set k v).getD i 0 = if i = k then v else l.getD i 0 := by
  by_cases hi : i < l.length
  · rw [List.getD_eq_getElem _ _ (by simpa using hi), List.getElem_set]
    by_cases hik : i = k
    · rw [if_pos (by omega), if_pos hik]
    · rw [if_neg (by omega), if_neg hik, List.getD_eq_getElem _ _ hi]
  · rw [List.getD_eq_default _ _ (by simpa using Nat.le_of_not_lt hi),
      List.getD_eq_default _ _ (Nat.le_of_not_lt hi), if_neg (by omega)]

theorem length_updateCell (m : ℕ) (res : List ℤ) (k : ℕ) (v : ℤ) :
    (ModularPolynomial.updateCell m res k v).length = res.length := by
  simp [ModularPolynomial.updateCell]

theorem ofList_updateCell (m : ℕ) (res : List ℤ) (k : ℕ) (v : ℤ)
    (h : k < res.length) :
    ofList m (ModularPolynomial.updateCell m res k v) =
      ofList m res + Polynomial.C (v : ZMod m) * Polynomial.X ^ k := by
  apply Polynomial.ext
  intro i
  rw [ofList_coeff, Polynomial.coeff_add, ofList_coeff, Polynomial.coeff_C_mul,
    Polynomial.coeff_X_pow, ModularPolynomial.updateCell, getD_set _ _ _ _ h]
  by_cases hik : i = k
  · rw [if_pos hik, if_pos hik, intCast_emod]
    subst hik
    push_cast
    ring
  · rw [if_neg hik, if_neg hik]
    ring

theorem length_innerMulLoop (m i : ℕ) (a : ℤ) :
    ∀ (bs : List ℤ) (j : ℕ) (res : List ℤ),
      (ModularPolynomial.innerMulLoop m i a bs j res).length = res.length := by
  intro bs
  induction bs with
  | nil => intro j res; rfl
  | cons b rest ih =>
      intro j res
      rw [ModularPolynomial.innerMulLoop, ih, length_updateCell]

theorem ofList_innerMulLoop (m i : ℕ) (a : ℤ) :
    ∀ (bs : List ℤ) (j : ℕ) (res : List ℤ), i + j + bs.length ≤ res.length →
    ofList m (ModularPolynomial.innerMulLoop m i a bs j res) =
      ofList m res + Polynomial.C (a : ZMod m) * Polynomial.X ^ (i + j) * ofList m bs := by
  intro bs
  induction bs with
  | nil =>
      intro j res _
      simp [ModularPolynomial.innerMulLoop, ofList]
  | cons b rest ih =>
      intro j res h
      rw [ModularPolynomial.innerMulLoop,
        ih (j + 1) _ (by rw [length_updateCell]; simp at h ⊢; omega),
        ofList_updateCell _ _ _ _ (by simp at h; omega)]
      rw [show ofList m (b :: rest) = Polynomial.C (b : ZMod m) + Polynomial.X * ofList m rest
        from rfl]
      rw [Int.cast_mul, map_mul]
      ring

theorem ofList_outerMulLoop (m : ℕ) (bs : List ℤ) :
    ∀ (as : List ℤ) (i : ℕ) (res : List ℤ), i + as.length + bs.length ≤ res.length + 1 →
    ofList m (ModularPolynomial.outerMulLoop m bs as i res) =
      ofList m res + Polynomial.X ^ i * ofList m as * ofList m bs := by
  intro as
  induction as with
  | nil =>
      intro i res _
      simp [ModularPolynomial.outerMulLoop, ofList]
  | cons a rest ih =>
      intro i res h
      rw [ModularPolynomial.outerMulLoop,
        ih (i + 1) _ (by rw [length_innerMulLoop]; simp at h ⊢; omega),
        ofList_innerMulLoop m i a bs 0 res (by simp at h; omega)]
      rw [show ofList m (a :: rest) = Polynomial.C (a : ZMod m) + Polynomial.X * ofList m rest
        from rfl]
      ring

theorem ofList_replicate_zero (m n : ℕ) : ofList m (List.replicate n 0) = 0 := by
  induction n with
  | zero => rfl
  | succ k ih => simp [List.replicate_succ, ofList, ih]

theorem toPZ_product_with (x y : ModularPolynomial) :
    toPZ x.modulus (ModularPolynomial.product_with x y) =
      toPZ x.modulus x * toPZ x.modulus y := by
  rw [ModularPolynomial.product_with, toPZ_mkPoly]
  rw [ofList_outerMulLoop _ _ _ 0 _ (by simp [List.length_replicate]; omega)]
  rw [ofList_replicate_zero]
  simp [toPZ]

theorem ofList_single_shift (m d : ℕ) (c : ℤ) :
    ofList m (List.replicate d 0 ++ [c]) = Polynomial.C (c : ZMod m) * Polynomial.X ^ d := by
  induction d with
  | zero => simp [ofList]
  | succ n ih =>
      rw [List.replicate_succ, List.cons_append, ofList, ih]
      push_cast
      rw [map_zero]
      ring

theorem getD_last (l : List ℤ) (h : l ≠ []) : l.getD (l.length - 1) 0 = l.getLastD 0 := by
  have hlen : l.length - 1 < l.length := by
    cases l
    · exact absurd rfl h
    · simp
  rw [List.getD_eq_getElem _ _ hlen, List.getLastD_eq_getLast?, List.getLast?_eq_getLast _ h,
    Option.getD_some, List.getLast_eq_getElem l h]

theorem canonical_not_zero_last (x : ModularPolynomial) (hx : Canonical x)
    (hz : x.is_zero = false) :
    0 < x.get_lead_coefficient ∧ x.get_lead_coefficient < (x.modulus : ℤ) := by
  obtain ⟨hne, hbd, hlast⟩ := hx
  have hne0 : x.coefficients ≠ [0] := by
    intro hcon
    rw [ModularPolynomial.is_zero, hcon] at hz
    simp at hz
  have hl : x.coefficients.getLastD 0 ≠ 0 := by
    rcases hlast with h | h
    · exact absurd h hne0
    · exact h
  have hmem : x.coefficients.getLastD 0 ∈ x.coefficients := by
    rw [List.getLastD_eq_getLast?, List.getLast?_eq_getLast _ hne]
    simp only [Option.getD_some]
    exact List.getLast_mem hne
  obtain ⟨h1, h2⟩ := hbd _ hmem
  rw [ModularPolynomial.get_lead_coefficient]
  exact ⟨lt_of_le_of_ne h1 (Ne.symm hl), h2⟩

theorem cast_lead_ne_zero (x : ModularPolynomial) (hx : Canonical x)
    (hz : x.is_zero = false) :
    ((x.get_lead_coefficient : ℤ) : ZMod x.modulus) ≠ 0 := by
  obtain ⟨h1, h2⟩ := canonical_not_zero_last x hx hz
  haveI : NeZero x.modulus := ⟨by omega⟩
  intro hcon
  rw [ZMod.intCast_zmod_eq_zero_iff_dvd] at hcon
  have := Int.le_of_dvd h1 hcon
  omega

theorem toPZ_coeff_high (m : ℕ) (x : ModularPolynomial) (i : ℕ)
    (h : x.coefficients.length ≤ i) : (toPZ m x).coeff i = 0 := by
  rw [toPZ_coeff, List.getD_eq_default _ _ h]
  simp

theorem toPZ_natDegree (x : ModularPolynomial) (hx : Canonical x)
    (hz : x.is_zero = false) :
    (toPZ x.modulus x).natDegree = x.get_degree ∧
      (toPZ x.modulus x).leadingCoeff = ((x.get_lead_coefficient : ℤ) : ZMod x.modulus) := by
  obtain ⟨hne, hbd, hlast⟩ := hx
  have hcoeff : (toPZ x.modulus x).coeff x.get_degree =
      ((x.get_lead_coefficient : ℤ) : ZMod x.modulus) := by
    rw [toPZ_coeff, ModularPolynomial.get_degree, getD_last _ hne]
    rfl
  have hnz : (toPZ x.modulus x).coeff x.get_degree ≠ 0 := by
    rw [hcoeff]
    exact cast_lead_ne_zero x ⟨hne, hbd, hlast⟩ hz
  have hdeg : (toPZ x.modulus x).natDegree = x.get_degree := by
    apply le_antisymm
    · apply Polynomial.natDegree_le_iff_coeff_eq_zero.2
      intro n hn
      apply toPZ_coeff_high
      rw [ModularPolynomial.get_degree] at hn
      omega
    · exact Polynomial.le_natDegree_of_ne_zero hnz
  refine ⟨hdeg, ?_⟩
  rw [Polynomial.leadingCoeff, hdeg, hcoeff]

theorem toPZ_eq_zero_of_is_zero (m : ℕ) (x : ModularPolynomial)
    (h : x.is_zero = true) : toPZ m x = 0 := by
  rw [ModularPolynomial.is_zero, beq_iff_eq] at h
  rw [toPZ, h]
  simp [ofList]

theorem toPZ_ne_zero (x : ModularPolynomial) (hx : Canonical x)
    (hz : x.is_zero = false) : toPZ x.modulus x ≠ 0 := by
  intro hcon
  apply cast_lead_ne_zero x hx hz
  have := (toPZ_natDegree x hx hz).2
  rw [hcon] at this
  rw [← this]
  simp

theorem is_zero_iff_toPZ (x : ModularPolynomial) (hx : Canonical x) :
    x.is_zero = true ↔ toPZ x.modulus x = 0 := by
  constructor
  · exact toPZ_eq_zero_of_is_zero x.modulus x
  · intro h
    by_contra hcon
    exact toPZ_ne_zero x hx (by simpa using hcon) h

theorem cast_inj_of_bounds (m : ℕ) (a b : ℤ)
    (ha : 0 ≤ a ∧ a < (m : ℤ)) (hb : 0 ≤ b ∧ b < (m : ℤ))
    (h : (a : ZMod m) = (b : ZMod m)) : a = b := by
  haveI : NeZero m := ⟨by omega⟩
  have hd : ((a - b : ℤ) : ZMod m) = 0 := by
    push_cast
    rw [h]
    ring
  rw [ZMod.intCast_zmod_eq_zero_iff_dvd] at hd
  have := Int.eq_zero_of_abs_lt_dvd hd (by rw [abs_lt]; omega)
  omega

theorem canonical_toPZ_inj (x y : ModularPolynomial) (hx : Canonical x)
    (hy : Canonical y) (hmod : x.modulus = y.modulus)
    (h : toPZ x.modulus x = toPZ x.modulus y) : x = y := by
  obtain ⟨hnex, hbdx, hlastx⟩ := hx
  obtain ⟨hney, hbdy, hlasty⟩ := hy
  have hcoeff : ∀ i : ℕ, ((x.coefficients.getD i 0 : ℤ) : ZMod x.modulus) =
      ((y.coefficients.getD i 0 : ℤ) : ZMod x.modulus) := by
    intro i
    rw [← toPZ_coeff, ← toPZ_coeff, h]
  have hm1 : 1 ≤ x.modulus := by
    have hmem : x.coefficients.getLastD 0 ∈ x.coefficients := by
      rw [List.getLastD_eq_getLast?, List.getLast?_eq_getLast _ hnex]
      simp only [Option.getD_some]
      exact List.getLast_mem hnex
    obtain ⟨h1, h2⟩ := hbdx _ hmem
    omega
  have hbdx' : ∀ i : ℕ, 0 ≤ x.coefficients.getD i 0 ∧
      x.coefficients.getD i 0 < (x.modulus : ℤ) := by
    intro i
    by_cases hi : i < x.coefficients.length
    · exact hbdx _ (getD_mem_of_lt _ _ hi)
    · rw [List.getD_eq_default _ _ (Nat.le_of_not_lt hi)]
      constructor
      · omega
      · exact_mod_cast hm1
  have hbdy' : ∀ i : ℕ, 0 ≤ y.coefficients.getD i 0 ∧
      y.coefficients.getD i 0 < (x.modulus : ℤ) := by
    intro i
    by_cases hi : i < y.coefficients.length
    · rw [hmod]
      exact hbdy _ (getD_mem_of_lt _ _ hi)
    · rw [List.getD_eq_default _ _ (Nat.le_of_not_lt hi)]
      constructor
      · omega
      · exact_mod_cast hm1
  have hentry : ∀ i : ℕ, x.coefficients.getD i 0 = y.coefficients.getD i 0 := by
    intro i
    exact cast_inj_of_bounds x.modulus _ _ (hbdx' i) (hbdy' i) (hcoeff i)
  have hlast_ne : ∀ (z : ModularPolynomial), Canonical z → z.coefficients.length ≠ 1 →
      z.coefficients.getLastD 0 ≠ 0 := by
    intro z hz hlen
    rcases hz.2.2 with h0 | h0
    · exact absurd (by rw [h0]; rfl) hlen
    · exact h0
  have hlen : x.coefficients.length = y.coefficients.length := by
    by_contra hcon
    rcases Nat.lt_or_ge x.coefficients.length y.coefficients.length with hlt | hge
    · -- y is longer: its last entry is visible past x's end
      have hylen : 1 ≤ y.coefficients.length := by
        cases hy : y.coefficients
        · exact absurd hy hney
        · simp [hy]
      have hgetx : x.coefficients.getD (y.coefficients.length - 1) 0 = 0 :=
        List.getD_eq_default _ _ (by omega)
      have hgety : y.coefficients.getD (y.coefficients.length - 1) 0 =
          y.coefficients.getLastD 0 := getD_last _ hney
      have hxlen1 : 1 ≤ x.coefficients.length := List.length_pos.2 hnex
      have hyne : y.coefficients.getLastD 0 ≠ 0 := by
        apply hlast_ne y ⟨hney, hbdy, hlasty⟩
        intro hcon1
        omega
      apply hyne
      rw [← hgety, ← hentry, hgetx]
    · rcases Nat.lt_or_ge y.coefficients.length x.coefficients.length with hlt2 | hge2
      · have hxlen : 1 ≤ x.coefficients.length := by
          cases hx : x.coefficients
          · exact absurd hx hnex
          · simp [hx]
        have hgety : y.coefficients.getD (x.coefficients.length - 1) 0 = 0 :=
          List.getD_eq_default _ _ (by omega)
        have hgetx : x.coefficients.getD (x.coefficients.length - 1) 0 =
            x.coefficients.getLastD 0 := getD_last _ hnex
        have hylen1 : 1 ≤ y.coefficients.length := List.length_pos.2 hney
        have hxne : x.coefficients.getLastD 0 ≠ 0 := by
          apply hlast_ne x ⟨hnex, hbdx, hlastx⟩
          intro hcon1
          omega
        apply hxne
        rw [← hgetx, hentry, hgety]
      · omega
  have hlists : x.coefficients = y.coefficients := by
    apply List.ext_getElem hlen
    intro i h1 h2
    have := hentry i
    rw [List.getD_eq_getElem _ _ h1, List.getD_eq_getElem _ _ h2] at this
    exact this
  cases x with
  | mk mx cx =>
      cases y with
      | mk my cy =>
          simp only at hmod hlists
          rw [hmod, hlists]

/-! ## Correctness of Euclidean division (divided_by) -/

theorem pow_card_sub_two (p : ℕ) (hp : p.Prime) (a : ZMod p) (ha : a ≠ 0) :
    a ^ (p - 2) = a⁻¹ := by
  haveI : Fact p.Prime := ⟨hp⟩
  have h2 : 2 ≤ p := hp.two_le
  have h1 : a ^ (p - 2) * a = 1 := by
    rw [← pow_succ]
    rw [show p - 2 + 1 = p - 1 by omega]
    exact ZMod.pow_card_sub_one_eq_one ha
  exact eq_inv_of_mul_eq_one_left h1

theorem mkPoly_modulus (m : ℕ) (raw : List ℤ) : (mkPoly m raw).modulus = m := rfl

theorem mkPoly_zero_is_zero (m : ℕ) : (mkPoly m [0]).is_zero = true := by
  have h : stripTrailing m [0] = [] := by
    rw [stripTrailing]
    simp [List.dropWhile]
  simp [mkPoly, h, ModularPolynomial.is_zero]

theorem toPZ_quotient_term (m qtDeg : ℕ) (c : ℤ) :
    toPZ m (mkPoly m (List.replicate qtDeg 0 ++ [c])) =
      Polynomial.C ((c : ℤ) : ZMod m) * Polynomial.X ^ qtDeg := by
  rw [toPZ_mkPoly, ofList_single_shift]

theorem toPZ_add_to' (m : ℕ) (x y : ModularPolynomial) (neg : Bool)
    (h : x.modulus = m) :
    toPZ m (ModularPolynomial.add_to x y neg) =
      if neg then toPZ m x - toPZ m y else toPZ m x + toPZ m y := by
  subst h
  exact toPZ_add_to x y neg

theorem toPZ_subtract_from' (m : ℕ) (x y : ModularPolynomial) (h : y.modulus = m) :
    toPZ m (ModularPolynomial.subtract_from x y) = toPZ m y - toPZ m x := by
  subst h
  exact toPZ_subtract_from x y

theorem toPZ_product_with' (m : ℕ) (x y : ModularPolynomial) (h : x.modulus = m) :
    toPZ m (ModularPolynomial.product_with x y) = toPZ m x * toPZ m y := by
  subst h
  exact toPZ_product_with x y

theorem toPZ_ne_zero' (m : ℕ) (x : ModularPolynomial) (h : x.modulus = m)
    (hx : Canonical x) (hz : x.is_zero = false) : toPZ m x ≠ 0 := by
  subst h
  exact toPZ_ne_zero x hx hz

theorem cast_lead_ne_zero' (m : ℕ) (x : ModularPolynomial) (h : x.modulus = m)
    (hx : Canonical x) (hz : x.is_zero = false) :
    ((x.get_lead_coefficient : ℤ) : ZMod m) ≠ 0 := by
  subst h
  exact cast_lead_ne_zero x hx hz

theorem toPZ_natDegree' (m : ℕ) (x : ModularPolynomial) (h : x.modulus = m)
    (hx : Canonical x) (hz : x.is_zero = false) :
    (toPZ m x).natDegree = x.get_degree ∧
      (toPZ m x).leadingCoeff = ((x.get_lead_coefficient : ℤ) : ZMod m) := by
  subst h
  exact toPZ_natDegree x hx hz

theorem is_zero_iff_toPZ' (m : ℕ) (x : ModularPolynomial) (h : x.modulus = m)
    (hx : Canonical x) : x.is_zero = true ↔ toPZ m x = 0 := by
  subst h
  exact is_zero_iff_toPZ x hx

/-- Specification of one iteration of the division loop: the modulus and
canonicity of the state are preserved, the quantity quotient * divisor +
remainder is invariant, and the remainder becomes zero or strictly drops in
degree. -/
theorem divisionStep_spec (m : ℕ) (hp : m.Prime) (other q r : ModularPolynomial)
    (hom : other.modulus = m) (hqm : q.modulus = m) (hrm : r.modulus = m)
    (hoc : Canonical other) (hrc : Canonical r)
    (hoz : other.is_zero = false)
    (hdeg : other.get_degree ≤ r.get_degree) (hrz : r.is_zero = false) :
    (ModularPolynomial.divisionStep m other q r).1.modulus = m ∧
    (ModularPolynomial.divisionStep m other q r).2.modulus = m ∧
    Canonical (ModularPolynomial.divisionStep m other q r).1 ∧
    Canonical (ModularPolynomial.divisionStep m other q r).2 ∧
    toPZ m (ModularPolynomial.divisionStep m other q r).1 * toPZ m other +
        toPZ m (ModularPolynomial.divisionStep m other q r).2 =
      toPZ m q * toPZ m other + toPZ m r ∧
    ((ModularPolynomial.divisionStep m other q r).2.is_zero = true ∨
      (ModularPolynomial.divisionStep m other q r).2.get_degree < r.get_degree) := by
  haveI : Fact m.Prime := ⟨hp⟩
  have hm1 : 1 ≤ m := le_of_lt hp.one_lt
  set qtDeg := r.get_degree - other.get_degree with hqtDeg
  set c : ℤ := r.get_lead_coefficient * ((other.get_lead_coefficient ^ (m - 2)) % (m : ℤ))
    with hc
  set t := mkPoly m (List.replicate qtDeg 0 ++ [c]) with ht
  have hstep : ModularPolynomial.divisionStep m other q r =
      (ModularPolynomial.add_to q t false,
        ModularPolynomial.subtract_from (ModularPolynomial.product_with other t) r) := rfl
  -- the interpreted leading coefficients
  have hLo : ((other.get_lead_coefficient : ℤ) : ZMod m) ≠ 0 :=
    cast_lead_ne_zero' m other hom hoc hoz
  have hLr : ((r.get_lead_coefficient : ℤ) : ZMod m) ≠ 0 :=
    cast_lead_ne_zero' m r hrm hrc hrz
  have hcast : ((c : ℤ) : ZMod m) =
      ((r.get_lead_coefficient : ℤ) : ZMod m) *
        ((other.get_lead_coefficient : ℤ) : ZMod m)⁻¹ := by
    rw [hc, Int.cast_mul, intCast_emod, Int.cast_pow]
    rw [pow_card_sub_two m hp _ hLo]
  have hcne : ((c : ℤ) : ZMod m) ≠ 0 := by
    rw [hcast]
    exact mul_ne_zero hLr (inv_ne_zero hLo)
  have htsem : toPZ m t = Polynomial.C ((c : ℤ) : ZMod m) * Polynomial.X ^ qtDeg :=
    toPZ_quotient_term m qtDeg c
  have htne : toPZ m t ≠ 0 := by
    rw [htsem]
    exact mul_ne_zero (Polynomial.C_ne_zero.mpr hcne) (pow_ne_zero _ Polynomial.X_ne_zero)
  have hone : toPZ m (ModularPolynomial.product_with other t) = toPZ m other * toPZ m t :=
    toPZ_product_with' m other t hom
  have hsub : toPZ m (ModularPolynomial.subtract_from (ModularPolynomial.product_with other t) r) =
      toPZ m r - toPZ m (ModularPolynomial.product_with other t) :=
    toPZ_subtract_from' m (ModularPolynomial.product_with other t) r hrm
  have hq' : toPZ m (ModularPolynomial.add_to q t false) = toPZ m q + toPZ m t := by
    have := toPZ_add_to' m q t false hqm
    simpa using this
  have hoz' : toPZ m other ≠ 0 := toPZ_ne_zero' m other hom hoc hoz
  have hrz' : toPZ m r ≠ 0 := toPZ_ne_zero' m r hrm hrc hrz
  have hodeg : (toPZ m other).natDegree = other.get_degree :=
    (toPZ_natDegree' m other hom hoc hoz).1
  have hrdeg : (toPZ m r).natDegree = r.get_degree :=
    (toPZ_natDegree' m r hrm hrc hrz).1
  have holead : (toPZ m other).leadingCoeff = ((other.get_lead_coefficient : ℤ) : ZMod m) :=
    (toPZ_natDegree' m other hom hoc hoz).2
  have hrlead : (toPZ m r).leadingCoeff = ((r.get_lead_coefficient : ℤ) : ZMod m) :=
    (toPZ_natDegree' m r hrm hrc hrz).2
  -- degree and leading coefficient of other * t
  have hbt_deg : (toPZ m other * toPZ m t).natDegree = r.get_degree := by
    rw [Polynomial.natDegree_mul hoz' htne, hodeg, htsem,
      Polynomial.natDegree_C_mul_X_pow qtDeg _ hcne, hqtDeg]
    omega
  have hbt_lead : (toPZ m other * toPZ m t).leadingCoeff = (toPZ m r).leadingCoeff := by
    rw [Polynomial.leadingCoeff_mul, holead, htsem, hrlead]
    rw [Polynomial.leadingCoeff_mul, Polynomial.leadingCoeff_C, Polynomial.leadingCoeff_X_pow]
    rw [hcast]
    field_simp
  have hbt_ne : toPZ m other * toPZ m t ≠ 0 := mul_ne_zero hoz' htne
  have hdegsub : (toPZ m r - toPZ m other * toPZ m t).degree < (toPZ m r).degree := by
    apply Polynomial.degree_sub_lt _ hrz' hbt_lead.symm
    rw [Polynomial.degree_eq_natDegree hrz', Polynomial.degree_eq_natDegree hbt_ne,
      hrdeg, hbt_deg]
  -- assemble
  rw [hstep]
  have hnewwm : (ModularPolynomial.subtract_from (ModularPolynomial.product_with other t) r).modulus = m := by
    rw [ModularPolynomial.subtract_from, ModularPolynomial.add_to, mkPoly_modulus, hrm]
  have hnewc : Canonical (ModularPolynomial.subtract_from (ModularPolynomial.product_with other t) r) := by
    rw [ModularPolynomial.subtract_from, ModularPolynomial.add_to]
    exact canonical_mkPoly _ _ (by rw [hrm]; exact hm1)
  refine ⟨by rw [ModularPolynomial.add_to, mkPoly_modulus, hqm], hnewwm,
    by rw [ModularPolynomial.add_to]; exact canonical_mkPoly _ _ (by rw [hqm]; exact hm1),
    hnewc, ?_, ?_⟩
  · rw [hq', hsub, hone]
    ring
  · -- remainder is zero or degree strictly decreases
    by_cases hz : (ModularPolynomial.subtract_from (ModularPolynomial.product_with other t) r).is_zero = true
    · exact Or.inl hz
    · right
      have hz' : (ModularPolynomial.subtract_from (ModularPolynomial.product_with other t) r).is_zero = false := by
        simpa using hz
      have hsem_ne : toPZ m (ModularPolynomial.subtract_from (ModularPolynomial.product_with other t) r) ≠ 0 :=
        toPZ_ne_zero' m _ hnewwm hnewc hz'
      have hdnew : (toPZ m (ModularPolynomial.subtract_from (ModularPolynomial.product_with other t) r)).natDegree =
          (ModularPolynomial.subtract_from (ModularPolynomial.product_with other t) r).get_degree :=
        (toPZ_natDegree' m _ hnewwm hnewc hz').1
      have hlt : (toPZ m (ModularPolynomial.subtract_from (ModularPolynomial.product_with other t) r)).degree <
          (toPZ m r).degree := by
        rw [hsub, hone]
        exact hdegsub
      rw [Polynomial.degree_eq_natDegree hsem_ne, Polynomial.degree_eq_natDegree hrz',
        hdnew, hrdeg] at hlt
      exact_mod_cast hlt

/-- Specification of the full division loop: with fuel dominating the
remainder's degree, the returned pair keeps modulus and canonical form, keeps
quotient * divisor + remainder invariant, and its remainder is zero or of
degree below the divisor's. -/
theorem divisionLoop_spec (m : ℕ) (hp : m.Prime) (other : ModularPolynomial)
    (hoc : Canonical other) (hom : other.modulus = m) (hoz : other.is_zero = false) :
    ∀ (fuel : ℕ) (q r : ModularPolynomial),
      Canonical q → q.modulus = m → Canonical r → r.modulus = m →
      (r.is_zero = true ∨ r.get_degree < fuel + other.get_degree) →
      (ModularPolynomial.divisionLoop m other fuel q r).1.modulus = m ∧
      (ModularPolynomial.divisionLoop m other fuel q r).2.modulus = m ∧
      Canonical (ModularPolynomial.divisionLoop m other fuel q r).1 ∧
      Canonical (ModularPolynomial.divisionLoop m other fuel q r).2 ∧
      toPZ m (ModularPolynomial.divisionLoop m other fuel q r).1 * toPZ m other +
          toPZ m (ModularPolynomial.divisionLoop m other fuel q r).2 =
        toPZ m q * toPZ m other + toPZ m r ∧
      ((ModularPolynomial.divisionLoop m other fuel q r).2.is_zero = true ∨
        (ModularPolynomial.divisionLoop m other fuel q r).2.get_degree < other.get_degree) := by
  intro fuel
  induction fuel with
  | zero =>
      intro q r hqc hqm hrc hrm hfuel
      have hloop : ModularPolynomial.divisionLoop m other 0 q r = (q, r) := rfl
      rw [hloop]
      refine ⟨hqm, hrm, hqc, hrc, rfl, ?_⟩
      rcases hfuel with h | h
      · exact Or.inl h
      · right
        show r.get_degree < other.get_degree
        omega
  | succ fuel ih =>
      intro q r hqc hqm hrc hrm hfuel
      by_cases hcond : other.get_degree ≤ r.get_degree ∧ r.is_zero = false
      · have hloop : ModularPolynomial.divisionLoop m other (fuel + 1) q r =
            ModularPolynomial.divisionLoop m other fuel
              (ModularPolynomial.divisionStep m other q r).1
              (ModularPolynomial.divisionStep m other q r).2 := by
          rw [ModularPolynomial.divisionLoop, if_pos hcond]
        obtain ⟨hm1, hm2, hc1, hc2, hsem, hdec⟩ :=
          divisionStep_spec m hp other q r hom hqm hrm hoc hrc hoz hcond.1 hcond.2
        have hbound : (ModularPolynomial.divisionStep m other q r).2.is_zero = true ∨
            (ModularPolynomial.divisionStep m other q r).2.get_degree <
              fuel + other.get_degree := by
          rcases hdec with h | h
          · exact Or.inl h
          · right
            rcases hfuel with hz | hlt
            · rw [hcond.2] at hz
              cases hz
            · omega
        obtain ⟨g1, g2, g3, g4, g5, g6⟩ := ih _ _ hc1 hm1 hc2 hm2 hbound
        rw [hloop]
        refine ⟨g1, g2, g3, g4, ?_, g6⟩
        rw [g5, hsem]
      · have hloop : ModularPolynomial.divisionLoop m other (fuel + 1) q r = (q, r) := by
          rw [ModularPolynomial.divisionLoop, if_neg hcond]
        rw [hloop]
        refine ⟨hqm, hrm, hqc, hrc, rfl, ?_⟩
        by_cases hz : r.is_zero = true
        · exact Or.inl hz
        · right
          have : ¬ other.get_degree ≤ r.get_degree := by
            intro hle
            exact hcond ⟨hle, by simpa using hz⟩
          show r.get_degree < other.get_degree
          omega

/-- Specification of divided_by for canonical operands over a prime modulus
with a nonzero divisor: the result is canonical with the dividend's modulus,
satisfies the Euclidean identity, and its remainder is zero or of degree below
the divisor's. -/
theorem divided_by_spec (x other : ModularPolynomial) (hp : x.modulus.Prime)
    (hxc : Canonical x) (hoc : Canonical other)
    (hmod : other.modulus = x.modulus) (hoz : other.is_zero = false) :
    (x.divided_by other).quotient.modulus = x.modulus ∧
    (x.divided_by other).remainder.modulus = x.modulus ∧
    Canonical (x.divided_by other).quotient ∧
    Canonical (x.divided_by other).remainder ∧
    toPZ x.modulus (x.divided_by other).quotient * toPZ x.modulus other +
        toPZ x.modulus (x.divided_by other).remainder = toPZ x.modulus x ∧
    ((x.divided_by other).remainder.is_zero = true ∨
      (x.divided_by other).remainder.get_degree < other.get_degree) := by
  have hm1 : 1 ≤ x.modulus := le_of_lt hp.one_lt
  have hcopy : ModularPolynomial.get_copy x = x := mkPoly_canonical_fixed x hxc
  have hq0c : Canonical (mkPoly x.modulus [0]) := canonical_mkPoly _ _ hm1
  have hq0z : toPZ x.modulus (mkPoly x.modulus [0]) = 0 :=
    toPZ_eq_zero_of_is_zero _ _ (mkPoly_zero_is_zero x.modulus)
  have hloop := divisionLoop_spec x.modulus hp other hoc hmod hoz
    (x.get_degree + 1) (mkPoly x.modulus [0]) (ModularPolynomial.get_copy x)
    hq0c (mkPoly_modulus _ _) (by rw [hcopy]; exact hxc) (by rw [hcopy])
    (by rw [hcopy]; right; omega)
  obtain ⟨g1, g2, g3, g4, g5, g6⟩ := hloop
  have hdiv : x.divided_by other = ⟨(ModularPolynomial.divisionLoop x.modulus other
      (x.get_degree + 1) (mkPoly x.modulus [0]) (ModularPolynomial.get_copy x)).1,
    (ModularPolynomial.divisionLoop x.modulus other
      (x.get_degree + 1) (mkPoly x.modulus [0]) (ModularPolynomial.get_copy x)).2⟩ := rfl
  rw [hdiv]
  refine ⟨g1, g2, g3, g4, ?_, g6⟩
  simp only
  rw [g5, hq0z, hcopy]
  ring

/-! ## The Euclidean remainder sequence of the inverse computation -/

theorem is_zero_false_of_not_constant (x : ModularPolynomial)
    (h : x.is_constant = false) : x.is_zero = false := by
  rw [ModularPolynomial.is_constant] at h
  rw [ModularPolynomial.is_zero]
  rw [beq_eq_false_iff_ne] at h ⊢
  intro hcon
  apply h
  rw [hcon]
  rfl

theorem canonical_all_zero_false (x : ModularPolynomial) (hx : Canonical x)
    (hz : x.is_zero = false) :
    (x.coefficients.isEmpty || x.coefficients.all fun c => c == 0) = false := by
  obtain ⟨h1, h2⟩ := canonical_not_zero_last x hx hz
  have hne := hx.1
  rw [Bool.or_eq_false_iff]
  constructor
  · simpa using hne
  · rw [List.all_eq_false]
    refine ⟨x.get_lead_coefficient, ?_, by simpa using (by omega : ¬ x.get_lead_coefficient = 0)⟩
    rw [ModularPolynomial.get_lead_coefficient, List.getLastD_eq_getLast?,
      List.getLast?_eq_getLast _ hne]
    simp only [Option.getD_some]
    exact List.getLast_mem hne

theorem divided_by_checked_ok (x other : ModularPolynomial)
    (hmod : x.modulus = other.modulus) (hoc : Canonical other)
    (hoz : other.is_zero = false) :
    x.divided_by_checked other = .ok (x.divided_by other) := by
  rw [ModularPolynomial.divided_by_checked, if_neg (by simpa using hmod),
    canonical_all_zero_false other hoc hoz]
  rfl

theorem euclideanLoop_succ_ok (fuel : ℕ) (dividend divisor : ModularPolynomial)
    (D : DivisionResult) (h : dividend.divided_by_checked divisor = .ok D) :
    FiniteFieldCalculator.euclideanLoop (fuel + 1) dividend divisor =
      (if D.remainder.is_constant then .ok ([D.quotient], [D.remainder])
      else do
        let rest ← FiniteFieldCalculator.euclideanLoop fuel divisor D.remainder
        .ok (D.quotient :: rest.1, D.remainder :: rest.2)) := by
  rw [FiniteFieldCalculator.euclideanLoop, h]
  rfl

/-- Existence of the Euclidean chain computed by the fueled loop: with fuel
above the divisor's degree, the loop returns ok and its output lists are
chained divisions. -/
theorem euclideanLoop_spec (m : ℕ) (hp : m.Prime) :
    ∀ (fuel : ℕ) (dividend divisor : ModularPolynomial),
      Canonical dividend → dividend.modulus = m →
      Canonical divisor → divisor.modulus = m → divisor.is_zero = false →
      divisor.get_degree < fuel →
      ∃ qs rs, FiniteFieldCalculator.euclideanLoop fuel dividend divisor = .ok (qs, rs) ∧
        EuclChain dividend divisor qs rs := by
  intro fuel
  induction fuel with
  | zero =>
      intro dividend divisor _ _ _ _ _ hbound
      omega
  | succ fuel ih =>
      intro dividend divisor hdc hdm hvc hvm hvz hbound
      have hchecked := divided_by_checked_ok dividend divisor (by rw [hdm, hvm]) hvc hvz
      obtain ⟨q1, q2, q3, q4, q5, q6⟩ :=
        divided_by_spec dividend divisor (by rw [hdm]; exact hp) hdc hvc (by rw [hdm, hvm]) hvz
      by_cases hconst : (dividend.divided_by divisor).remainder.is_constant = true
      · refine ⟨[(dividend.divided_by divisor).quotient],
          [(dividend.divided_by divisor).remainder], ?_, ?_⟩
        · rw [euclideanLoop_succ_ok fuel dividend divisor _ hchecked, if_pos hconst]
        · exact EuclChain.last dividend divisor _ _ rfl hconst
      · have hconst' : (dividend.divided_by divisor).remainder.is_constant = false := by
          simpa using hconst
        have hrz : (dividend.divided_by divisor).remainder.is_zero = false :=
          is_zero_false_of_not_constant _ hconst'
        have hrdeg : (dividend.divided_by divisor).remainder.get_degree < fuel := by
          rcases q6 with h | h
          · rw [h] at hrz
            cases hrz
          · omega
        obtain ⟨qs, rs, hok, hchain⟩ := ih divisor (dividend.divided_by divisor).remainder
          hvc hvm q4 (by rw [q2, hdm]) hrz hrdeg
        refine ⟨(dividend.divided_by divisor).quotient :: qs,
          (dividend.divided_by divisor).remainder :: rs, ?_, ?_⟩
        · rw [euclideanLoop_succ_ok fuel dividend divisor _ hchecked,
            if_neg (by rw [hconst']; simp), hok]
          rfl
        · exact EuclChain.step dividend divisor _ _ qs rs rfl hconst' hchain

theorem getLastD_irrel {α : Type} (l : List α) (h : l ≠ []) (d1 d2 : α) :
    l.getLastD d1 = l.getLastD d2 := by
  rw [List.getLastD_eq_getLast?, List.getLastD_eq_getLast?, List.getLast?_eq_getLast _ h]
  rfl

theorem euclChain_rs_ne_nil {dvd dvs : ModularPolynomial}
    {qs rs : List ModularPolynomial} (h : EuclChain dvd dvs qs rs) : rs ≠ [] := by
  cases h <;> simp

theorem euclChain_qs_ne_nil {dvd dvs : ModularPolynomial}
    {qs rs : List ModularPolynomial} (h : EuclChain dvd dvs qs rs) : qs ≠ [] := by
  cases h <;> simp

/-- Structural facts along a Euclidean chain over a prime modulus: lengths
match, every recorded polynomial is canonical with the right modulus, and the
final remainder is constant. -/
theorem euclChain_facts (m : ℕ) (hp : m.Prime) {dvd dvs : ModularPolynomial}
    {qs rs : List ModularPolynomial} (h : EuclChain dvd dvs qs rs) :
    Canonical dvd → dvd.modulus = m → Canonical dvs → dvs.modulus = m →
    dvs.is_zero = false →
    rs.length = qs.length ∧
    (∀ q ∈ qs, Canonical q ∧ q.modulus = m) ∧
    (∀ r ∈ rs, Canonical r ∧ r.modulus = m) ∧
    (rs.getLastD ⟨m, [0]⟩).is_constant = true := by
  induction h with
  | last dividend divisor q r hdiv hconst =>
      intro h1 h2 h3 h4 h5
      obtain ⟨s1, s2, s3, s4, _, _⟩ :=
        divided_by_spec dividend divisor (by rw [h2]; exact hp) h1 h3 (by rw [h2, h4]) h5
      rw [hdiv] at s1 s2 s3 s4
      simp only at s1 s2 s3 s4
      refine ⟨rfl, ?_, ?_, ?_⟩
      · intro q' hq'
        rw [List.mem_singleton] at hq'
        subst hq'
        exact ⟨s3, by rw [s1, h2]⟩
      · intro r' hr'
        rw [List.mem_singleton] at hr'
        subst hr'
        exact ⟨s4, by rw [s2, h2]⟩
      · simpa using hconst
  | step dividend divisor q r qs rs hdiv hconst hrec ih =>
      intro h1 h2 h3 h4 h5
      obtain ⟨s1, s2, s3, s4, _, _⟩ :=
        divided_by_spec dividend divisor (by rw [h2]; exact hp) h1 h3 (by rw [h2, h4]) h5
      rw [hdiv] at s1 s2 s3 s4
      simp only at s1 s2 s3 s4
      obtain ⟨g1, g2, g3, g4⟩ := ih h3 h4 s4 (by rw [s2, h2])
        (is_zero_false_of_not_constant r hconst)
      refine ⟨by simp [g1], ?_, ?_, ?_⟩
      · intro q' hq'
        rcases List.mem_cons.1 hq' with hq' | hq'
        · subst hq'
          exact ⟨s3, by rw [s1, h2]⟩
        · exact g2 q' hq'
      · intro r' hr'
        rcases List.mem_cons.1 hr' with hr' | hr'
        · subst hr'
          exact ⟨s4, by rw [s2, h2]⟩
        · exact g3 r' hr'
      · rw [List.getLastD_cons, getLastD_irrel rs (euclChain_rs_ne_nil hrec) r ⟨m, [0]⟩]
        exact g4

theorem bezoutFold_linear (m : ℕ) :
    ∀ (Q : List (Polynomial (ZMod m))) (a b : Polynomial (ZMod m)),
      bezoutFold m (a, b) Q =
        (a * (bezoutFold m (1, 0) Q).1 + b * (bezoutFold m (0, 1) Q).1,
         a * (bezoutFold m (1, 0) Q).2 + b * (bezoutFold m (0, 1) Q).2) := by
  intro Q
  induction Q with
  | nil =>
      intro a b
      simp [bezoutFold]
  | cons t Q ih =>
      intro a b
      have e0 : bezoutFold m (a, b) (t :: Q) = bezoutFold m (b, a - t * b) Q := rfl
      have e1 : bezoutFold m (1, 0) (t :: Q) =
          bezoutFold m ((0 : Polynomial (ZMod m)), 1 - t * 0) Q := rfl
      have e2 : bezoutFold m (0, 1) (t :: Q) =
          bezoutFold m ((1 : Polynomial (ZMod m)), 0 - t * 1) Q := rfl
      rw [e0, e1, e2, ih b (a - t * b), ih 0 (1 - t * 0), ih 1 (0 - t * 1),
        Prod.mk.injEq]
      constructor <;> ring

/-- Bezout identity along a Euclidean chain: the second components of the two
seeded folds over the quotient list combine the original dividend and divisor
into the final remainder. -/
theorem euclChain_bezout (m : ℕ) (hp : m.Prime) {dvd dvs : ModularPolynomial}
    {qs rs : List ModularPolynomial} (h : EuclChain dvd dvs qs rs) :
    Canonical dvd → dvd.modulus = m → Canonical dvs → dvs.modulus = m →
    dvs.is_zero = false →
    (bezoutFold m (1, 0) (qs.map (toPZ m))).2 * toPZ m dvd +
        (bezoutFold m (0, 1) (qs.map (toPZ m))).2 * toPZ m dvs =
      toPZ m (rs.getLastD ⟨m, [0]⟩) := by
  induction h with
  | last dividend divisor q r hdiv hconst =>
      intro h1 h2 h3 h4 h5
      obtain ⟨_, _, _, _, s5, _⟩ :=
        divided_by_spec dividend divisor (by rw [h2]; exact hp) h1 h3 (by rw [h2, h4]) h5
      rw [hdiv] at s5
      simp only at s5
      rw [h2] at s5
      have e1 : (bezoutFold m (1, 0) ([q].map (toPZ m))).2 = 1 := by
        show ((0 : Polynomial (ZMod m)), (1 : Polynomial (ZMod m)) - toPZ m q * 0).2 = 1
        simp
      have e2 : (bezoutFold m (0, 1) ([q].map (toPZ m))).2 = - toPZ m q := by
        show ((1 : Polynomial (ZMod m)), (0 : Polynomial (ZMod m)) - toPZ m q * 1).2 = - toPZ m q
        simp
      rw [e1, e2]
      show 1 * toPZ m dividend + -toPZ m q * toPZ m divisor = toPZ m r
      linear_combination -s5
  | step dividend divisor q r qs rs hdiv hconst hrec ih =>
      intro h1 h2 h3 h4 h5
      obtain ⟨_, _, _, s4, s5, _⟩ :=
        divided_by_spec dividend divisor (by rw [h2]; exact hp) h1 h3 (by rw [h2, h4]) h5
      rw [hdiv] at s4 s5
      simp only at s4 s5
      rw [h2] at s5
      have hih := ih h3 h4 s4 (by
          have : r.modulus = dividend.modulus := by
            have := congrArg DivisionResult.remainder hdiv
            simp only at this
            rw [← this]
            exact (divided_by_spec dividend divisor (by rw [h2]; exact hp) h1 h3
              (by rw [h2, h4]) h5).2.1
          rw [this, h2])
        (is_zero_false_of_not_constant r hconst)
      have e1 : (bezoutFold m (1, 0) ((q :: qs).map (toPZ m))).2 =
          (bezoutFold m (0, 1) (qs.map (toPZ m))).2 := by
        show (bezoutFold m ((0 : Polynomial (ZMod m)), 1 - toPZ m q * 0) (qs.map (toPZ m))).2 = _
        rw [bezoutFold_linear]
        ring
      have e2 : (bezoutFold m (0, 1) ((q :: qs).map (toPZ m))).2 =
          (bezoutFold m (1, 0) (qs.map (toPZ m))).2 -
            toPZ m q * (bezoutFold m (0, 1) (qs.map (toPZ m))).2 := by
        show (bezoutFold m ((1 : Polynomial (ZMod m)), 0 - toPZ m q * 1) (qs.map (toPZ m))).2 = _
        rw [bezoutFold_linear]
        ring
      rw [e1, e2]
      rw [show ((r :: rs).getLastD ⟨m, [0]⟩) = rs.getLastD ⟨m, [0]⟩ by
        rw [List.getLastD_cons, getLastD_irrel rs (euclChain_rs_ne_nil hrec) r ⟨m, [0]⟩]]
      linear_combination hih - (bezoutFold m (0, 1) (qs.map (toPZ m))).2 * s5

theorem getD_last' {α : Type} (l : List α) (d : α) (h : l ≠ []) :
    l.getD (l.length - 1) d = l.getLastD d := by
  have hlen : l.length - 1 < l.length := by
    cases l
    · exact absurd rfl h
    · simp
  rw [List.getD_eq_getElem _ _ hlen, List.getLastD_eq_getLast?, List.getLast?_eq_getLast _ h,
    Option.getD_some, List.getLast_eq_getElem l h]

theorem getD_mem_poly {α : Type} (l : List α) (i : ℕ) (d : α) (h : i < l.length) :
    l.getD i d ∈ l := by
  rw [List.getD_eq_getElem l d h]
  exact List.getElem_mem h

theorem bezoutFold_append (m : ℕ) (A B : List (Polynomial (ZMod m)))
    (seed : Polynomial (ZMod m) × Polynomial (ZMod m)) :
    bezoutFold m seed (A ++ B) = bezoutFold m (bezoutFold m seed A) B := by
  induction A generalizing seed with
  | nil => rfl
  | cons t A ih =>
      obtain ⟨a, b⟩ := seed
      show bezoutFold m (b, a - t * b) (A ++ B) = _
      rw [ih]
      rfl

theorem bezoutFold_pair (m : ℕ) (x y : Polynomial (ZMod m)) :
    bezoutFold m (0, 1) [x, y] = (-x, x * y + 1) := by
  have h : bezoutFold m (0, 1) [x, y] = (0 - x * 1, 1 - y * (0 - x * 1)) := rfl
  rw [h, Prod.mk.injEq]
  constructor <;> ring

/-- Structural specification of the expression-building loop of
_compute_expression_from_sequence: the loop appends one expression per index,
leaves earlier entries untouched, gives every new entry the implemented
recurrence shape (the previous-previous expression minus the quotient times
the previous one), keeps the modulus, and tracks the last two expressions as
the backward-substitution fold over the interpreted quotient segment. -/
theorem exprLoop_spec (m : ℕ) (qs : List ModularPolynomial)
    (hqmod : ∀ q ∈ qs, q.modulus = m) :
    ∀ (n x : ℕ) (E : List ModularPolynomial),
      2 ≤ x → E.length = x → x + n ≤ qs.length →
      (∀ e ∈ E, e.modulus = m) →
      (FiniteFieldCalculator.exprLoop m qs n x E).length = x + n ∧
      (∀ e ∈ FiniteFieldCalculator.exprLoop m qs n x E, e.modulus = m) ∧
      (∀ j, j < x → (FiniteFieldCalculator.exprLoop m qs n x E).getD j ⟨m, [0]⟩ =
        E.getD j ⟨m, [0]⟩) ∧
      (∀ i, x ≤ i → i < x + n →
        (FiniteFieldCalculator.exprLoop m qs n x E).getD i ⟨m, [0]⟩ =
          ModularPolynomial.subtract_from
            (ModularPolynomial.product_with (qs.getD i ⟨m, [0]⟩)
              ((FiniteFieldCalculator.exprLoop m qs n x E).getD (i - 1) ⟨m, [0]⟩))
            ((FiniteFieldCalculator.exprLoop m qs n x E).getD (i - 2) ⟨m, [0]⟩)) ∧
      (toPZ m ((FiniteFieldCalculator.exprLoop m qs n x E).getD (x + n - 2) ⟨m, [0]⟩),
        toPZ m ((FiniteFieldCalculator.exprLoop m qs n x E).getD (x + n - 1) ⟨m, [0]⟩)) =
        bezoutFold m
          (toPZ m (E.getD (x - 2) ⟨m, [0]⟩), toPZ m (E.getD (x - 1) ⟨m, [0]⟩))
          (((qs.drop x).take n).map (toPZ m)) := by
  intro n
  induction n with
  | zero =>
      intro x E hx hlen hbound hmod
      have hloop : FiniteFieldCalculator.exprLoop m qs 0 x E = E := rfl
      rw [hloop]
      refine ⟨by omega, hmod, fun j _ => rfl, fun i h1 h2 => by omega, ?_⟩
      simp [bezoutFold]
  | succ n ih =>
      intro x E hx hlen hbound hmod
      set dummy : ModularPolynomial := (⟨m, [0]⟩ : ModularPolynomial) with hdummy
      set newE : ModularPolynomial := ModularPolynomial.subtract_from
        (ModularPolynomial.product_with (qs.getD x dummy) (E.getD (x - 1) dummy))
        (E.getD (x - 2) dummy) with hnewE
      have hloop : FiniteFieldCalculator.exprLoop m qs (n + 1) x E =
          FiniteFieldCalculator.exprLoop m qs n (x + 1) (E ++ [newE]) := rfl
      have hmod' : ∀ e ∈ E ++ [newE], e.modulus = m := by
        intro e he
        rcases List.mem_append.1 he with he | he
        · exact hmod e he
        · rw [List.mem_singleton] at he
          subst he
          rw [hnewE, ModularPolynomial.subtract_from, ModularPolynomial.add_to, mkPoly_modulus]
          by_cases hi : x - 2 < E.length
          · exact hmod _ (getD_mem_poly E _ dummy hi)
          · rw [List.getD_eq_default _ _ (Nat.le_of_not_lt hi)]
      obtain ⟨g1, g2, g3, g4, g5⟩ := ih (x + 1) (E ++ [newE]) (by omega)
        (by simp [hlen]) (by omega) hmod'
      have hEnew_at_x : (E ++ [newE]).getD x dummy = newE := by
        rw [← hlen, List.getD_append_right _ _ _ _ (by omega)]
        simp [hlen]
      have hE_stable : ∀ j, j < x → (E ++ [newE]).getD j dummy = E.getD j dummy := by
        intro j hj
        exact List.getD_append _ _ _ _ (by omega)
      refine ⟨by rw [hloop]; omega, by rw [hloop]; exact g2, ?_, ?_, ?_⟩
      · intro j hj
        rw [hloop, g3 j (by omega), hE_stable j hj]
      · intro i h1 h2
        rcases Nat.lt_or_ge i (x + 1) with hi | hi
        · have hix : i = x := by omega
          subst hix
          rw [hloop, g3 i (by omega), hEnew_at_x, hnewE]
          congr 1
          · congr 1
            rw [g3 (i - 1) (by omega), hE_stable (i - 1) (by omega)]
          · rw [g3 (i - 2) (by omega), hE_stable (i - 2) (by omega)]
        · rw [hloop]
          exact g4 i hi (by omega)
      · rw [hloop]
        have hseg : (qs.drop x).take (n + 1) =
            qs.getD x dummy :: (qs.drop (x + 1)).take n := by
          rw [List.drop_eq_getElem_cons (by omega : x < qs.length)]
          rw [List.getD_eq_getElem _ _ (by omega : x < qs.length)]
          rfl
        rw [hseg]
        have hfold : bezoutFold m
            (toPZ m (E.getD (x - 2) dummy), toPZ m (E.getD (x - 1) dummy))
            (List.map (toPZ m) (qs.getD x dummy :: (qs.drop (x + 1)).take n)) =
            bezoutFold m
              (toPZ m (E.getD (x - 1) dummy),
                toPZ m (E.getD (x - 2) dummy) -
                  toPZ m (qs.getD x dummy) * toPZ m (E.getD (x - 1) dummy))
              (List.map (toPZ m) ((qs.drop (x + 1)).take n)) := rfl
        rw [hfold]
        have hseedswap : toPZ m newE = toPZ m (E.getD (x - 2) dummy) -
            toPZ m (qs.getD x dummy) * toPZ m (E.getD (x - 1) dummy) := by
          rw [hnewE, toPZ_subtract_from' m _ _ (by
            by_cases hi : x - 2 < E.length
            · exact hmod _ (getD_mem_poly E _ dummy hi)
            · rw [List.getD_eq_default _ _ (Nat.le_of_not_lt hi)])]
          congr 1
          rw [toPZ_product_with' m _ _ (by
            by_cases hi : x < qs.length
            · exact hqmod _ (getD_mem_poly qs _ dummy hi)
            · rw [List.getD_eq_default _ _ (Nat.le_of_not_lt hi)])]
      -- rewrite the pair seed through the appended element
        rw [← hseedswap]
        have e1 : (E ++ [newE]).getD (x + 1 - 2) dummy = E.getD (x - 1) dummy := by
          rw [show x + 1 - 2 = x - 1 by omega]
          exact hE_stable (x - 1) (by omega)
        have e2 : (E ++ [newE]).getD (x + 1 - 1) dummy = newE := by
          rw [show x + 1 - 1 = x by omega]
          exact hEnew_at_x
        rw [show x + (n + 1) - 2 = x + 1 + n - 2 by omega,
          show x + (n + 1) - 1 = x + 1 + n - 1 by omega, g5, e1, e2]

theorem toPZ_get_negative' (m : ℕ) (x : ModularPolynomial) (h : x.modulus = m) :
    toPZ m (ModularPolynomial.get_negative x) = - toPZ m x := by
  subst h
  exact toPZ_get_negative x

theorem toPZ_add_one' (m : ℕ) (x : ModularPolynomial) (h : x.modulus = m) :
    toPZ m (ModularPolynomial.add_one x) = toPZ m x + 1 := by
  subst h
  exact toPZ_add_one x

theorem get_negative_modulus (x : ModularPolynomial) :
    (ModularPolynomial.get_negative x).modulus = x.modulus := rfl

theorem add_one_modulus (x : ModularPolynomial) :
    (ModularPolynomial.add_one x).modulus = x.modulus := rfl

theorem product_with_modulus (x y : ModularPolynomial) :
    (ModularPolynomial.product_with x y).modulus = x.modulus := rfl

theorem subtract_from_modulus (x y : ModularPolynomial) :
    (ModularPolynomial.subtract_from x y).modulus = y.modulus := rfl

/-- The value computed by _compute_expression_from_sequence, interpreted in
the polynomial ring, is the second component of the backward-substitution
fold with seeds (0, 1) over the whole interpreted quotient list. -/
theorem compute_expression_spec (m : ℕ) (qs : List ModularPolynomial)
    (hqmod : ∀ q ∈ qs, q.modulus = m) (hne : qs ≠ []) :
    (FiniteFieldCalculator.compute_expression_from_sequence m qs qs.length).modulus = m ∧
    toPZ m (FiniteFieldCalculator.compute_expression_from_sequence m qs qs.length) =
      (bezoutFold m (0, 1) (qs.map (toPZ m))).2 := by
  cases qs with
  | nil => exact absurd rfl hne
  | cons a t =>
      cases t with
      | nil =>
          have ham : a.modulus = m := hqmod a (by simp)
          have hres : FiniteFieldCalculator.compute_expression_from_sequence m [a] 1 =
              ModularPolynomial.get_negative a := rfl
          have hfold : (bezoutFold m (0, 1) ([a].map (toPZ m))).2 = - toPZ m a := by
            show (bezoutFold m ((1 : Polynomial (ZMod m)), 0 - toPZ m a * 1) []).2 = _
            show (0 : Polynomial (ZMod m)) - toPZ m a * 1 = _
            ring
          rw [show ([a] : List ModularPolynomial).length = 1 from rfl, hres, hfold,
            get_negative_modulus, ham, toPZ_get_negative' m a ham]
          exact ⟨rfl, rfl⟩
      | cons b t2 =>
          have ham : a.modulus = m := hqmod a (by simp)
          have hbm : b.modulus = m := hqmod b (by simp)
          have hmodE1 : ∀ e ∈ [ModularPolynomial.get_negative a,
              ModularPolynomial.add_one (ModularPolynomial.product_with a b)],
              e.modulus = m := by
            intro e he
            rcases List.mem_cons.1 he with he | he
            · subst he
              rw [get_negative_modulus, ham]
            · rw [List.mem_singleton] at he
              subst he
              rw [add_one_modulus, product_with_modulus, ham]
          obtain ⟨g1, g2, g3, g4, g5⟩ := exprLoop_spec m (a :: b :: t2) hqmod
            ((a :: b :: t2).length - 2) 2
            [ModularPolynomial.get_negative a,
              ModularPolynomial.add_one (ModularPolynomial.product_with a b)]
            (by omega) rfl (by simp only [List.length_cons]; omega) hmodE1
          have hexpr : FiniteFieldCalculator.expressionList m (a :: b :: t2)
              (a :: b :: t2).length =
              FiniteFieldCalculator.exprLoop m (a :: b :: t2) ((a :: b :: t2).length - 2) 2
                [ModularPolynomial.get_negative a,
                  ModularPolynomial.add_one (ModularPolynomial.product_with a b)] := by
            rw [FiniteFieldCalculator.expressionList]
            rw [if_pos (by simp : 1 < (a :: b :: t2).length)]
            rfl
          have hlen2 : 2 + ((a :: b :: t2).length - 2) = (a :: b :: t2).length := by
            simp only [List.length_cons]
            omega
          have hLne : FiniteFieldCalculator.exprLoop m (a :: b :: t2)
              ((a :: b :: t2).length - 2) 2
              [ModularPolynomial.get_negative a,
                ModularPolynomial.add_one (ModularPolynomial.product_with a b)] ≠ [] := by
            intro hcon
            have := congrArg List.length hcon
            rw [g1] at this
            simp only [List.length_nil] at this
            omega
          have hres : FiniteFieldCalculator.compute_expression_from_sequence m (a :: b :: t2)
              (a :: b :: t2).length =
              (FiniteFieldCalculator.exprLoop m (a :: b :: t2) ((a :: b :: t2).length - 2) 2
                [ModularPolynomial.get_negative a,
                  ModularPolynomial.add_one (ModularPolynomial.product_with a b)]).getD
                ((a :: b :: t2).length - 1) ⟨m, [0]⟩ := by
            rw [FiniteFieldCalculator.compute_expression_from_sequence, hexpr,
              ← getD_last' _ _ hLne, g1]
            rw [show 2 + ((a :: b :: t2).length - 2) - 1 = (a :: b :: t2).length - 1 by
              simp only [List.length_cons]
              omega]
          have hseed1 : toPZ m (([ModularPolynomial.get_negative a,
              ModularPolynomial.add_one (ModularPolynomial.product_with a b)].getD 0
                (⟨m, [0]⟩ : ModularPolynomial))) = - toPZ m a := by
            rw [List.getD_cons_zero]
            exact toPZ_get_negative' m a ham
          have hseed2 : toPZ m (([ModularPolynomial.get_negative a,
              ModularPolynomial.add_one (ModularPolynomial.product_with a b)].getD 1
                (⟨m, [0]⟩ : ModularPolynomial))) = toPZ m a * toPZ m b + 1 := by
            rw [List.getD_cons_succ, List.getD_cons_zero,
              toPZ_add_one' m _ (by rw [product_with_modulus, ham]),
              toPZ_product_with' m a b ham]
          have hfoldqs : bezoutFold m (0, 1) ((a :: b :: t2).map (toPZ m)) =
              bezoutFold m (- toPZ m a, toPZ m a * toPZ m b + 1) (t2.map (toPZ m)) := by
            have hsplit : (a :: b :: t2).map (toPZ m) =
                [toPZ m a, toPZ m b] ++ t2.map (toPZ m) := rfl
            rw [hsplit, bezoutFold_append, bezoutFold_pair]
          have hseg : (((a :: b :: t2).drop 2).take ((a :: b :: t2).length - 2)) = t2 := by
            simp
          have hidx1 : 2 + ((a :: b :: t2).length - 2) - 1 = (a :: b :: t2).length - 1 := by
            simp only [List.length_cons]
            omega
          refine ⟨?_, ?_⟩
          · rw [hres]
            exact g2 _ (getD_mem_poly _ _ _ (by rw [g1]; simp only [List.length_cons]; omega))
          · rw [hres, hfoldqs]
            have hp2 := congrArg Prod.snd g5
            simp only at hp2
            rw [hseg, hseed1, hseed2, hidx1] at hp2
            exact hp2

theorem canonical_add_to (x y : ModularPolynomial) (neg : Bool) (h : 1 ≤ x.modulus) :
    Canonical (ModularPolynomial.add_to x y neg) :=
  canonical_mkPoly _ _ h

theorem canonical_subtract_from (x y : ModularPolynomial) (h : 1 ≤ y.modulus) :
    Canonical (ModularPolynomial.subtract_from x y) :=
  canonical_mkPoly _ _ h

theorem canonical_product_with (x y : ModularPolynomial) (h : 1 ≤ x.modulus) :
    Canonical (ModularPolynomial.product_with x y) :=
  canonical_mkPoly _ _ h

theorem canonical_get_negative (x : ModularPolynomial) (h : 1 ≤ x.modulus) :
    Canonical (ModularPolynomial.get_negative x) :=
  canonical_mkPoly _ _ h

theorem canonical_add_one (x : ModularPolynomial) (h : 1 ≤ x.modulus) :
    Canonical (ModularPolynomial.add_one x) :=
  canonical_mkPoly _ _ h

theorem exprLoop_length (m : ℕ) (qs : List ModularPolynomial) :
    ∀ (n x : ℕ) (E : List ModularPolynomial),
      (FiniteFieldCalculator.exprLoop m qs n x E).length = E.length + n := by
  intro n
  induction n with
  | zero => intro x E; rfl
  | succ n ih =>
      intro x E
      show (FiniteFieldCalculator.exprLoop m qs n (x + 1) (E ++ [_])).length = _
      rw [ih]
      simp
      omega

theorem exprLoop_canonical (m : ℕ) (hm : 1 ≤ m) (qs : List ModularPolynomial) :
    ∀ (n x : ℕ) (E : List ModularPolynomial),
      (∀ e ∈ E, e.modulus = m) → (∀ e ∈ E, Canonical e) →
      (∀ e ∈ FiniteFieldCalculator.exprLoop m qs n x E, Canonical e) ∧
      (∀ e ∈ FiniteFieldCalculator.exprLoop m qs n x E, e.modulus = m) := by
  intro n
  induction n with
  | zero => intro x E h1 h2; exact ⟨h2, h1⟩
  | succ n ih =>
      intro x E hmod hcan
      set dummy : ModularPolynomial := (⟨m, [0]⟩ : ModularPolynomial) with hdummy
      set newE : ModularPolynomial := ModularPolynomial.subtract_from
        (ModularPolynomial.product_with (qs.getD x dummy) (E.getD (x - 1) dummy))
        (E.getD (x - 2) dummy) with hnewE
      have hmodbase : (E.getD (x - 2) dummy).modulus = m := by
        by_cases hi : x - 2 < E.length
        · exact hmod _ (getD_mem_poly E _ dummy hi)
        · rw [List.getD_eq_default _ _ (Nat.le_of_not_lt hi)]
      have hmodnew : newE.modulus = m := by
        rw [hnewE, subtract_from_modulus, hmodbase]
      have hcannew : Canonical newE := by
        rw [hnewE]
        exact canonical_subtract_from _ _ (by rw [hmodbase]; exact hm)
      have hloop : FiniteFieldCalculator.exprLoop m qs (n + 1) x E =
          FiniteFieldCalculator.exprLoop m qs n (x + 1) (E ++ [newE]) := rfl
      rw [hloop]
      apply ih
      · intro e he
        rcases List.mem_append.1 he with he | he
        · exact hmod e he
        · rw [List.mem_singleton] at he
          subst he
          exact hmodnew
      · intro e he
        rcases List.mem_append.1 he with he | he
        · exact hcan e he
        · rw [List.mem_singleton] at he
          subst he
          exact hcannew

/-- The constructed Bezout expression is itself a canonical polynomial with
the expected modulus (it is built entirely through the constructor). -/
theorem compute_expression_canonical (m : ℕ) (hm : 1 ≤ m)
    (qs : List ModularPolynomial) (hqmod : ∀ q ∈ qs, q.modulus = m) (count : ℕ) :
    Canonical (FiniteFieldCalculator.compute_expression_from_sequence m qs count) ∧
    (FiniteFieldCalculator.compute_expression_from_sequence m qs count).modulus = m := by
  set dummy : ModularPolynomial := (⟨m, [0]⟩ : ModularPolynomial) with hdummy
  set E1 : List ModularPolynomial :=
    (if 1 < qs.length then
      [ModularPolynomial.get_negative (qs.getD 0 dummy)] ++
        [ModularPolynomial.add_one (ModularPolynomial.product_with (qs.getD 0 dummy)
          (qs.getD 1 dummy))]
    else [ModularPolynomial.get_negative (qs.getD 0 dummy)]) with hE1
  have hq0 : (qs.getD 0 dummy).modulus = m := by
    by_cases hi : 0 < qs.length
    · exact hqmod _ (getD_mem_poly qs _ dummy hi)
    · rw [List.getD_eq_default _ _ (Nat.le_of_not_lt hi)]
  have hmodE1 : ∀ e ∈ E1, e.modulus = m := by
    intro e he
    rw [hE1] at he
    by_cases hq : 1 < qs.length
    · rw [if_pos hq, List.singleton_append] at he
      rcases List.mem_cons.1 he with he | he
      · subst he
        rw [get_negative_modulus, hq0]
      · rw [List.mem_singleton] at he
        subst he
        rw [add_one_modulus, product_with_modulus, hq0]
    · rw [if_neg hq, List.mem_singleton] at he
      subst he
      rw [get_negative_modulus, hq0]
  have hcanE1 : ∀ e ∈ E1, Canonical e := by
    intro e he
    rw [hE1] at he
    by_cases hq : 1 < qs.length
    · rw [if_pos hq, List.singleton_append] at he
      rcases List.mem_cons.1 he with he | he
      · subst he
        exact canonical_get_negative _ (by rw [hq0]; exact hm)
      · rw [List.mem_singleton] at he
        subst he
        exact canonical_add_one _ (by rw [product_with_modulus, hq0]; exact hm)
    · rw [if_neg hq, List.mem_singleton] at he
      subst he
      exact canonical_get_negative _ (by rw [hq0]; exact hm)
  have hE1ne : E1 ≠ [] := by
    rw [hE1]
    by_cases hq : 1 < qs.length
    · rw [if_pos hq]
      simp
    · rw [if_neg hq]
      simp
  have hexpr : FiniteFieldCalculator.compute_expression_from_sequence m qs count =
      (FiniteFieldCalculator.exprLoop m qs (count - 2) 2 E1).getLastD dummy := by
    rw [FiniteFieldCalculator.compute_expression_from_sequence,
      FiniteFieldCalculator.expressionList, hE1]
  have hLne : FiniteFieldCalculator.exprLoop m qs (count - 2) 2 E1 ≠ [] := by
    intro hcon
    have hlen := congrArg List.length hcon
    rw [exprLoop_length] at hlen
    simp only [List.length_nil] at hlen
    have hpos : 0 < E1.length := List.length_pos.2 hE1ne
    omega
  have hmem : (FiniteFieldCalculator.exprLoop m qs (count - 2) 2 E1).getLastD dummy ∈
      FiniteFieldCalculator.exprLoop m qs (count - 2) 2 E1 := by
    rw [← getD_last' _ _ hLne]
    apply getD_mem_poly
    have hpos : 0 < (FiniteFieldCalculator.exprLoop m qs (count - 2) 2 E1).length :=
      List.length_pos.2 hLne
    omega
  obtain ⟨hcanL, hmodL⟩ := exprLoop_canonical m hm qs (count - 2) 2 E1 hmodE1 hcanE1
  rw [hexpr]
  exact ⟨hcanL _ hmem, hmodL _ hmem⟩

theorem reduce_by_modulus_ok (fieldCalc : FiniteFieldCalculator) (poly : ModularPolynomial)
    (hmod : poly.modulus = fieldCalc.polynomial_modulus.modulus)
    (hMc : Canonical fieldCalc.polynomial_modulus)
    (hMz : fieldCalc.polynomial_modulus.is_zero = false) :
    fieldCalc.reduce_by_modulus poly =
      .ok (poly.divided_by fieldCalc.polynomial_modulus).remainder := by
  rw [FiniteFieldCalculator.reduce_by_modulus, divided_by_checked_ok _ _ hmod hMc hMz]
  rfl

theorem find_constant_inverse_canonical (fieldCalc : FiniteFieldCalculator)
    (x : ModularPolynomial) (h : 1 ≤ fieldCalc.prime_modulus) :
    Canonical (fieldCalc.find_constant_inverse x) ∧
      (fieldCalc.find_constant_inverse x).modulus = fieldCalc.prime_modulus :=
  ⟨canonical_mkPoly _ _ h, rfl⟩

theorem find_inverse_unfold (fieldCalc : FiniteFieldCalculator) (b : ModularPolynomial)
    (hz : b.is_zero = false) (hc : b.is_constant = false)
    (qs rs : List ModularPolynomial)
    (hseq : fieldCalc.compute_euclidean_sequence b = .ok (qs, rs)) :
    fieldCalc.find_multiplicative_inverse b =
      (fieldCalc.reduce_by_modulus
        (FiniteFieldCalculator.compute_expression_from_sequence
          fieldCalc.prime_modulus qs rs.length)).map
        (fun reduced => ModularPolynomial.product_with reduced
          (fieldCalc.find_constant_inverse
            (rs.getLastD ⟨fieldCalc.prime_modulus, [0]⟩))) := by
  rw [FiniteFieldCalculator.find_multiplicative_inverse, if_neg (by rw [hz]; simp),
    if_neg (by rw [hc]; simp)]
  show (do
      let seqs ← fieldCalc.compute_euclidean_sequence b
      let finalConstantInverse := fieldCalc.find_constant_inverse
        (seqs.2.getLastD ⟨fieldCalc.prime_modulus, [0]⟩)
      let initialExpression := FiniteFieldCalculator.compute_expression_from_sequence
        fieldCalc.prime_modulus seqs.1 seqs.2.length
      let reducedExpression ← fieldCalc.reduce_by_modulus initialExpression
      Except.ok (ModularPolynomial.product_with reducedExpression finalConstantInverse)) = _
  rw [hseq]
  cases hred : fieldCalc.reduce_by_modulus
      (FiniteFieldCalculator.compute_expression_from_sequence
        fieldCalc.prime_modulus qs rs.length) with
  | error e =>
      show (do
          let reducedExpression ← fieldCalc.reduce_by_modulus
            (FiniteFieldCalculator.compute_expression_from_sequence
              fieldCalc.prime_modulus qs rs.length)
          Except.ok (ModularPolynomial.product_with reducedExpression
            (fieldCalc.find_constant_inverse
              (rs.getLastD ⟨fieldCalc.prime_modulus, [0]⟩)))) = _
      rw [hred]
      rfl
  | ok reduced =>
      show (do
          let reducedExpression ← fieldCalc.reduce_by_modulus
            (FiniteFieldCalculator.compute_expression_from_sequence
              fieldCalc.prime_modulus qs rs.length)
          Except.ok (ModularPolynomial.product_with reducedExpression
            (fieldCalc.find_constant_inverse
              (rs.getLastD ⟨fieldCalc.prime_modulus, [0]⟩)))) = _
      rw [hred]
      rfl

/-- Full success of the non-constant inverse path: the Euclidean sequence,
the reduction and the final scaling all succeed, and the returned inverse is
canonical with the calculator's modulus. -/
theorem find_inverse_ok (fieldCalc : FiniteFieldCalculator) (b : ModularPolynomial)
    (hp : fieldCalc.prime_modulus.Prime)
    (hMc : Canonical fieldCalc.polynomial_modulus)
    (hMm : fieldCalc.polynomial_modulus.modulus = fieldCalc.prime_modulus)
    (hMnc : fieldCalc.polynomial_modulus.is_constant = false)
    (hbc : Canonical b) (hbm : b.modulus = fieldCalc.prime_modulus)
    (hbz : b.is_zero = false) :
    ∃ inv, fieldCalc.find_multiplicative_inverse b = .ok inv ∧ Canonical inv ∧
      inv.modulus = fieldCalc.prime_modulus := by
  have hm1 : 1 ≤ fieldCalc.prime_modulus := le_of_lt hp.one_lt
  have hMz : fieldCalc.polynomial_modulus.is_zero = false :=
    is_zero_false_of_not_constant _ hMnc
  by_cases hbconst : b.is_constant = true
  · refine ⟨fieldCalc.find_constant_inverse b, ?_, canonical_mkPoly _ _ hm1, rfl⟩
    rw [FiniteFieldCalculator.find_multiplicative_inverse, if_neg (by rw [hbz]; simp),
      if_pos hbconst]
  · have hbconst' : b.is_constant = false := by simpa using hbconst
    obtain ⟨qs, rs, hok, hchain⟩ := euclideanLoop_spec fieldCalc.prime_modulus hp
      (b.get_degree + fieldCalc.polynomial_modulus.get_degree + 2)
      fieldCalc.polynomial_modulus b hMc hMm hbc hbm hbz (by omega)
    have hseq : fieldCalc.compute_euclidean_sequence b = .ok (qs, rs) := by
      rw [FiniteFieldCalculator.compute_euclidean_sequence]
      exact hok
    obtain ⟨hlen, hqfacts, hrfacts, hlastconst⟩ := euclChain_facts fieldCalc.prime_modulus hp
      hchain hMc hMm hbc hbm hbz
    have hqmod : ∀ q ∈ qs, q.modulus = fieldCalc.prime_modulus := fun q hq => (hqfacts q hq).2
    obtain ⟨hexprcan, hexprmod⟩ := compute_expression_canonical fieldCalc.prime_modulus hm1
      qs hqmod rs.length
    have hred : fieldCalc.reduce_by_modulus
        (FiniteFieldCalculator.compute_expression_from_sequence
          fieldCalc.prime_modulus qs rs.length) =
        .ok ((FiniteFieldCalculator.compute_expression_from_sequence
          fieldCalc.prime_modulus qs rs.length).divided_by
            fieldCalc.polynomial_modulus).remainder :=
      reduce_by_modulus_ok fieldCalc _ (by rw [hexprmod, hMm]) hMc hMz
    have hfind := find_inverse_unfold fieldCalc b hbz hbconst' qs rs hseq
    rw [hred] at hfind
    refine ⟨_, hfind, ?_, ?_⟩
    · apply canonical_product_with
      have hq := (divided_by_spec (FiniteFieldCalculator.compute_expression_from_sequence
        fieldCalc.prime_modulus qs rs.length) fieldCalc.polynomial_modulus
        (by rw [hexprmod]; exact hp) hexprcan hMc (by rw [hexprmod, hMm]) hMz).2.1
      rw [hq, hexprmod]
      exact hm1
    · rw [product_with_modulus]
      have hq := (divided_by_spec (FiniteFieldCalculator.compute_expression_from_sequence
        fieldCalc.prime_modulus qs rs.length) fieldCalc.polynomial_modulus
        (by rw [hexprmod]; exact hp) hexprcan hMc (by rw [hexprmod, hMm]) hMz).2.1
      rw [hq, hexprmod]

/-- Canonicity of the division loop state needs no primality: every update
goes through the constructor. -/
theorem divisionLoop_canonical (m : ℕ) (hm : 1 ≤ m) (other : ModularPolynomial) :
    ∀ (fuel : ℕ) (q r : ModularPolynomial),
      Canonical q → Canonical r → q.modulus = m → r.modulus = m →
      Canonical (ModularPolynomial.divisionLoop m other fuel q r).1 ∧
      Canonical (ModularPolynomial.divisionLoop m other fuel q r).2 ∧
      (ModularPolynomial.divisionLoop m other fuel q r).1.modulus = m ∧
      (ModularPolynomial.divisionLoop m other fuel q r).2.modulus = m := by
  intro fuel
  induction fuel with
  | zero => intro q r h1 h2 h3 h4; exact ⟨h1, h2, h3, h4⟩
  | succ fuel ih =>
      intro q r h1 h2 h3 h4
      by_cases hcond : other.get_degree ≤ r.get_degree ∧ r.is_zero = false
      · have hloop : ModularPolynomial.divisionLoop m other (fuel + 1) q r =
            ModularPolynomial.divisionLoop m other fuel
              (ModularPolynomial.divisionStep m other q r).1
              (ModularPolynomial.divisionStep m other q r).2 := by
          rw [ModularPolynomial.divisionLoop, if_pos hcond]
        rw [hloop]
        apply ih
        · exact canonical_add_to _ _ _ (by rw [h3]; exact hm)
        · exact canonical_subtract_from _ _ (by rw [h4]; exact hm)
        · show (ModularPolynomial.add_to q _ false).modulus = m
          rw [ModularPolynomial.add_to, mkPoly_modulus, h3]
        · show (ModularPolynomial.subtract_from _ r).modulus = m
          rw [subtract_from_modulus, h4]
      · have hloop : ModularPolynomial.divisionLoop m other (fuel + 1) q r = (q, r) := by
          rw [ModularPolynomial.divisionLoop, if_neg hcond]
        rw [hloop]
        exact ⟨h1, h2, h3, h4⟩

theorem divided_by_canonical (x other : ModularPolynomial) (h : 1 ≤ x.modulus) :
    Canonical (x.divided_by other).quotient ∧ Canonical (x.divided_by other).remainder ∧
    (x.divided_by other).quotient.modulus = x.modulus ∧
    (x.divided_by other).remainder.modulus = x.modulus := by
  obtain ⟨g1, g2, g3, g4⟩ := divisionLoop_canonical x.modulus h other (x.get_degree + 1)
    (mkPoly x.modulus [0]) (ModularPolynomial.get_copy x)
    (canonical_mkPoly _ _ h) (canonical_mkPoly _ _ h) rfl rfl
  exact ⟨g1, g2, g3, g4⟩

/-- Once the fuel bound dominates the remainder's degree, adding fuel does not
change the division loop's result: the loop has terminated. -/
theorem divisionLoop_stable (m : ℕ) (hp : m.Prime) (other : ModularPolynomial)
    (hoc : Canonical other) (hom : other.modulus = m) (hoz : other.is_zero = false) :
    ∀ (fuel : ℕ) (q r : ModularPolynomial),
      Canonical q → q.modulus = m → Canonical r → r.modulus = m →
      (r.is_zero = true ∨ r.get_degree < fuel + other.get_degree) →
      ModularPolynomial.divisionLoop m other (fuel + 1) q r =
        ModularPolynomial.divisionLoop m other fuel q r := by
  intro fuel
  induction fuel with
  | zero =>
      intro q r hqc hqm hrc hrm hb
      have hcond : ¬ (other.get_degree ≤ r.get_degree ∧ r.is_zero = false) := by
        rintro ⟨hc1, hc2⟩
        rcases hb with hz | hd
        · rw [hc2] at hz
          cases hz
        · omega
      have h0 : ModularPolynomial.divisionLoop m other 0 q r = (q, r) := rfl
      rw [h0, ModularPolynomial.divisionLoop, if_neg hcond]
  | succ fuel ih =>
      intro q r hqc hqm hrc hrm hb
      by_cases hcond : other.get_degree ≤ r.get_degree ∧ r.is_zero = false
      · have hl1 : ModularPolynomial.divisionLoop m other (fuel + 1 + 1) q r =
            ModularPolynomial.divisionLoop m other (fuel + 1)
              (ModularPolynomial.divisionStep m other q r).1
              (ModularPolynomial.divisionStep m other q r).2 := by
          rw [ModularPolynomial.divisionLoop, if_pos hcond]
        have hl2 : ModularPolynomial.divisionLoop m other (fuel + 1) q r =
            ModularPolynomial.divisionLoop m other fuel
              (ModularPolynomial.divisionStep m other q r).1
              (ModularPolynomial.divisionStep m other q r).2 := by
          rw [ModularPolynomial.divisionLoop, if_pos hcond]
        obtain ⟨s1, s2, s3, s4, _, s6⟩ :=
          divisionStep_spec m hp other q r hom hqm hrm hoc hrc hoz hcond.1 hcond.2
        rw [hl1, hl2]
        apply ih _ _ s3 s1 s4 s2
        rcases s6 with hz | hd
        · exact Or.inl hz
        · right
          rcases hb with hz | hbd
          · rw [hcond.2] at hz
            cases hz
          · omega
      · have hl1 : ModularPolynomial.divisionLoop m other (fuel + 1 + 1) q r = (q, r) := by
          rw [ModularPolynomial.divisionLoop, if_neg hcond]
        have hl2 : ModularPolynomial.divisionLoop m other (fuel + 1) q r = (q, r) := by
          rw [ModularPolynomial.divisionLoop, if_neg hcond]
        rw [hl1, hl2]

theorem divided_by_checked_ok_inv (x other : ModularPolynomial) (D : DivisionResult)
    (h : x.divided_by_checked other = .ok D) : D = x.divided_by other := by
  rw [ModularPolynomial.divided_by_checked] at h
  by_cases h1 : x.modulus ≠ other.modulus
  · rw [if_pos h1] at h
    cases h
  · rw [if_neg h1] at h
    by_cases h2 : (other.coefficients.isEmpty || other.coefficients.all fun c => c == 0) = true
    · rw [if_pos h2] at h
      cases h
    · rw [if_neg h2] at h
      injection h with h
      exact h.symm

theorem reduce_ok_inv (fieldCalc : FiniteFieldCalculator) (poly res : ModularPolynomial)
    (h : fieldCalc.reduce_by_modulus poly = .ok res) :
    res = (poly.divided_by fieldCalc.polynomial_modulus).remainder := by
  rw [FiniteFieldCalculator.reduce_by_modulus] at h
  cases hc : poly.divided_by_checked fieldCalc.polynomial_modulus with
  | error e =>
      rw [hc] at h
      cases h
  | ok D =>
      rw [hc] at h
      have hD := divided_by_checked_ok_inv poly fieldCalc.polynomial_modulus D hc
      injection h with h
      rw [← h, hD]

/-- Claim C2: for canonical operands over a common prime modulus with a
nonzero divisor, divided_by returns a quotient and remainder satisfying the
division identity in (Z/pZ)[x], and the remainder is zero or of degree
strictly below the divisor's. -/
theorem claim_C2 (a b : ModularPolynomial) (hp : a.modulus.Prime)
    (hmod : b.modulus = a.modulus) (ha : Canonical a) (hb : Canonical b)
    (hbz : b.is_zero = false) :
    toPZ a.modulus a =
      toPZ a.modulus b * toPZ a.modulus (a.divided_by b).quotient +
        toPZ a.modulus (a.divided_by b).remainder ∧
    ((a.divided_by b).remainder.is_zero = true ∨
      (a.divided_by b).remainder.get_degree < b.get_degree) := by
  obtain ⟨_, _, _, _, h5, h6⟩ := divided_by_spec a b hp ha hb hmod hbz
  refine ⟨?_, h6⟩
  rw [← h5]
  ring

theorem claim_C2_witness :
    Nat.Prime (mkPoly 5 [1, 1, 1]).modulus ∧
    (toPZ (mkPoly 5 [1, 1, 1]).modulus (mkPoly 5 [1, 1, 1]) =
        toPZ (mkPoly 5 [1, 1, 1]).modulus (mkPoly 5 [1, 1]) *
            toPZ (mkPoly 5 [1, 1, 1]).modulus
              ((mkPoly 5 [1, 1, 1]).divided_by (mkPoly 5 [1, 1])).quotient +
          toPZ (mkPoly 5 [1, 1, 1]).modulus
            ((mkPoly 5 [1, 1, 1]).divided_by (mkPoly 5 [1, 1])).remainder ∧
      (((mkPoly 5 [1, 1, 1]).divided_by (mkPoly 5 [1, 1])).remainder.is_zero = true ∨
        ((mkPoly 5 [1, 1, 1]).divided_by (mkPoly 5 [1, 1])).remainder.get_degree <
          (mkPoly 5 [1, 1]).get_degree)) :=
  ⟨by decide, claim_C2 (mkPoly 5 [1, 1, 1]) (mkPoly 5 [1, 1]) (by decide) (by decide)
    (by decide) (by decide) (by decide)⟩

/-- Claim C10: divided_by terminates.  Under the loop guard (prime modulus,
nonzero canonical divisor, remainder at least the divisor's degree and
nonzero) one iteration of the division loop either reaches the zero remainder
or strictly decreases the remainder's degree, and consequently the loop's
result is unchanged by any fuel beyond the degree bound used by divided_by. -/
theorem claim_C10 (m : ℕ) (hp : m.Prime) (other q r : ModularPolynomial)
    (hom : other.modulus = m) (hqm : q.modulus = m) (hrm : r.modulus = m)
    (hoc : Canonical other) (hqc : Canonical q) (hrc : Canonical r)
    (hoz : other.is_zero = false)
    (hdeg : other.get_degree ≤ r.get_degree) (hrz : r.is_zero = false) :
    ((ModularPolynomial.divisionStep m other q r).2.is_zero = true ∨
      (ModularPolynomial.divisionStep m other q r).2.get_degree < r.get_degree) ∧
    (∀ extra : ℕ,
      ModularPolynomial.divisionLoop m other (r.get_degree + 1 + extra) q r =
        ModularPolynomial.divisionLoop m other (r.get_degree + 1) q r) := by
  refine ⟨(divisionStep_spec m hp other q r hom hqm hrm hoc hrc hoz hdeg hrz).2.2.2.2.2, ?_⟩
  intro extra
  induction extra with
  | zero => rfl
  | succ extra ih =>
      rw [show r.get_degree + 1 + (extra + 1) = (r.get_degree + 1 + extra) + 1 by omega]
      rw [divisionLoop_stable m hp other hoc hom hoz (r.get_degree + 1 + extra) q r
        hqc hqm hrc hrm (Or.inr (by omega))]
      exact ih

theorem claim_C10_witness :
    Nat.Prime 5 ∧
    (((ModularPolynomial.divisionStep 5 (mkPoly 5 [1, 1]) (mkPoly 5 [0])
        (mkPoly 5 [1, 1, 1])).2.is_zero = true ∨
      (ModularPolynomial.divisionStep 5 (mkPoly 5 [1, 1]) (mkPoly 5 [0])
        (mkPoly 5 [1, 1, 1])).2.get_degree < (mkPoly 5 [1, 1, 1]).get_degree) ∧
    (∀ extra : ℕ,
      ModularPolynomial.divisionLoop 5 (mkPoly 5 [1, 1])
          ((mkPoly 5 [1, 1, 1]).get_degree + 1 + extra) (mkPoly 5 [0]) (mkPoly 5 [1, 1, 1]) =
        ModularPolynomial.divisionLoop 5 (mkPoly 5 [1, 1])
          ((mkPoly 5 [1, 1, 1]).get_degree + 1) (mkPoly 5 [0]) (mkPoly 5 [1, 1, 1]))) :=
  ⟨by decide, claim_C10 5 (by decide) (mkPoly 5 [1, 1]) (mkPoly 5 [0]) (mkPoly 5 [1, 1, 1])
    (by decide) (by decide) (by decide) (by decide) (by decide) (by decide) (by decide)
    (by decide) (by decide)⟩

/-- Claim C3: every polynomial produced by the constructor, by the arithmetic
operations, by divided_by, or returned successfully by handle_operation or
find_multiplicative_inverse, is canonical: coefficients lie in the interval
from 0 to the modulus and there is no trailing zero except the zero
polynomial's single entry. -/
theorem claim_C3 :
    (∀ (m : ℕ) (raw : List ℤ), 1 ≤ m → Canonical (mkPoly m raw)) ∧
    (∀ (x y : ModularPolynomial) (neg : Bool), 1 ≤ x.modulus →
      Canonical (ModularPolynomial.add_to x y neg)) ∧
    (∀ (x y : ModularPolynomial), 1 ≤ y.modulus →
      Canonical (ModularPolynomial.subtract_from x y)) ∧
    (∀ (x y : ModularPolynomial), 1 ≤ x.modulus →
      Canonical (ModularPolynomial.product_with x y)) ∧
    (∀ x : ModularPolynomial, 1 ≤ x.modulus →
      Canonical (ModularPolynomial.get_negative x)) ∧
    (∀ x other : ModularPolynomial, 1 ≤ x.modulus →
      Canonical (x.divided_by other).quotient ∧ Canonical (x.divided_by other).remainder) ∧
    (∀ (fieldCalc : FiniteFieldCalculator) (b inv : ModularPolynomial),
      fieldCalc.prime_modulus.Prime →
      Canonical fieldCalc.polynomial_modulus →
      fieldCalc.polynomial_modulus.modulus = fieldCalc.prime_modulus →
      fieldCalc.polynomial_modulus.is_constant = false →
      Canonical b → b.modulus = fieldCalc.prime_modulus →
      fieldCalc.find_multiplicative_inverse b = .ok inv → Canonical inv) ∧
    (∀ (fieldCalc : FiniteFieldCalculator) (c0 c1 : List ℤ) (op : FieldOperation)
      (res : ModularPolynomial),
      fieldCalc.prime_modulus.Prime →
      Canonical fieldCalc.polynomial_modulus →
      fieldCalc.polynomial_modulus.modulus = fieldCalc.prime_modulus →
      fieldCalc.polynomial_modulus.is_constant = false →
      fieldCalc.handle_operation c0 c1 op = .ok res → Canonical res) := by
  refine ⟨fun m raw hm => canonical_mkPoly m raw hm,
    fun x y neg h => canonical_add_to x y neg h,
    fun x y h => canonical_subtract_from x y h,
    fun x y h => canonical_product_with x y h,
    fun x h => canonical_get_negative x h,
    fun x other h => ⟨(divided_by_canonical x other h).1, (divided_by_canonical x other h).2.1⟩,
    ?_, ?_⟩
  · intro fieldCalc b inv hp hMc hMm hMnc hbc hbm hok
    by_cases hbz : b.is_zero = true
    · rw [FiniteFieldCalculator.find_multiplicative_inverse, if_pos hbz] at hok
      cases hok
    · obtain ⟨inv', hok', hcan', _⟩ := find_inverse_ok fieldCalc b hp hMc hMm hMnc hbc hbm
        (by simpa using hbz)
      rw [hok'] at hok
      injection hok with hok
      rw [← hok]
      exact hcan'
  · intro fieldCalc c0 c1 op res hp hMc hMm hMnc hok
    have hm1 : 1 ≤ fieldCalc.prime_modulus := le_of_lt hp.one_lt
    cases op with
    | ADD =>
        have : fieldCalc.handle_operation c0 c1 .ADD =
            .ok (ModularPolynomial.add_to (mkPoly fieldCalc.prime_modulus c0)
              (mkPoly fieldCalc.prime_modulus c1) false) := rfl
        rw [this] at hok
        injection hok with hok
        rw [← hok]
        exact canonical_add_to _ _ _ hm1
    | SUBTRACT =>
        have : fieldCalc.handle_operation c0 c1 .SUBTRACT =
            .ok (ModularPolynomial.subtract_from (mkPoly fieldCalc.prime_modulus c1)
              (mkPoly fieldCalc.prime_modulus c0)) := rfl
        rw [this] at hok
        injection hok with hok
        rw [← hok]
        exact canonical_subtract_from _ _ hm1
    | MULTIPLY =>
        have : fieldCalc.handle_operation c0 c1 .MULTIPLY =
            fieldCalc.reduce_by_modulus
              (ModularPolynomial.product_with (mkPoly fieldCalc.prime_modulus c0)
                (mkPoly fieldCalc.prime_modulus c1)) := rfl
        rw [this] at hok
        rw [reduce_ok_inv _ _ _ hok]
        exact (divided_by_canonical _ _ hm1).2.1
    | DIVIDE =>
        have hunfold : fieldCalc.handle_operation c0 c1 .DIVIDE =
            (if (mkPoly fieldCalc.prime_modulus c1).is_zero = true then
              .error "Cannot divide by zero polynomial"
            else do
              let polynomial1Inverse ← fieldCalc.find_multiplicative_inverse
                (mkPoly fieldCalc.prime_modulus c1)
              fieldCalc.reduce_by_modulus
                (ModularPolynomial.product_with (mkPoly fieldCalc.prime_modulus c0)
                  polynomial1Inverse)) := rfl
        rw [hunfold] at hok
        by_cases hz : (mkPoly fieldCalc.prime_modulus c1).is_zero = true
        · rw [if_pos hz] at hok
          cases hok
        · rw [if_neg hz] at hok
          cases hinv : fieldCalc.find_multiplicative_inverse
              (mkPoly fieldCalc.prime_modulus c1) with
          | error e =>
              rw [hinv] at hok
              cases hok
          | ok inv =>
              rw [hinv] at hok
              have hok' : fieldCalc.reduce_by_modulus
                  (ModularPolynomial.product_with (mkPoly fieldCalc.prime_modulus c0) inv) =
                  .ok res := hok
              rw [reduce_ok_inv _ _ _ hok']
              exact (divided_by_canonical _ _ hm1).2.1

theorem claim_C3_witness :
    (1 : ℕ) ≤ 5 ∧ Canonical (mkPoly 5 [7, -3, 10]) ∧
    Canonical ((mkPoly 5 [1, 1, 1]).divided_by (mkPoly 5 [1, 1])).remainder :=
  ⟨by decide, claim_C3.1 5 [7, -3, 10] (by decide),
    (claim_C3.2.2.2.2.2.1 (mkPoly 5 [1, 1, 1]) (mkPoly 5 [1, 1]) (by decide)).2⟩

/-- Claim C9 counterexample: constructing a polynomial from the raw vector
[1, 0] over modulus 5 leaves the caller's list as [1]: the constructor pops
the trailing zero from the caller's vector in place, so construction does
modify the caller's vector. -/
theorem claim_C9_counterexample : constructorRawAfter 5 [1, 0] ≠ [1, 0] := by
  decide

/-- Claim C9 as amended: construction truncates the caller's vector in place
to the prefix left after removing the maximal trailing run of entries
divisible by the modulus; the removed entries are exactly divisible ones, and
what remains ends in a non-divisible entry (or is empty), so the vector is
unchanged exactly when it had no such trailing run. -/
theorem claim_C9_amended (m : ℕ) (raw : List ℤ) :
    (∃ t, constructorRawAfter m raw ++ t = raw ∧ ∀ c ∈ t, c % (m : ℤ) = 0) ∧
    (constructorRawAfter m raw = [] ∨
      (constructorRawAfter m raw).getLastD 0 % (m : ℤ) ≠ 0) := by
  constructor
  · exact stripTrailing_decomp m raw
  · by_cases h : stripTrailing m raw = []
    · exact Or.inl h
    · exact Or.inr (stripTrailing_last m raw h)

/-- Claim C7: find_irreducible returns x directly for degree 1 over any
characteristic of at least 2, and the hardcoded nine-coefficient polynomial
for characteristic 2, degree 8, without running the trinomial search. -/
theorem claim_C7 :
    (∀ c : ℕ, 2 ≤ c →
      find_irreducible c 1 = some { modulus := c, coefficients := [0, 1] }) ∧
    find_irreducible 2 8 =
      some { modulus := 2, coefficients := [1, 1, 0, 0, 0, 0, 1, 1, 1] } := by
  constructor
  · intro c hc
    have h1 : (1 : ℤ) % (c : ℤ) = 1 :=
      Int.emod_eq_of_lt (by norm_num) (by exact_mod_cast hc)
    have hmk : mkPoly c [0, 1] = { modulus := c, coefficients := [0, 1] } := by
      have hstrip : stripTrailing c [0, 1] = [0, 1] := by
        rw [stripTrailing]
        show (List.dropWhile _ [1, 0]).reverse = _
        rw [List.dropWhile_cons, if_neg (by simp [h1])]
        rfl
      rw [mkPoly]
      simp only [hstrip]
      rw [if_neg (by simp)]
      simp [h1]
    rw [find_irreducible, if_pos rfl, hmk]
  · decide

theorem claim_C7_witness :
    (2 : ℕ) ≤ 3 ∧
    find_irreducible 3 1 = some { modulus := 3, coefficients := [0, 1] } ∧
    find_irreducible 2 8 =
      some { modulus := 2, coefficients := [1, 1, 0, 0, 0, 0, 1, 1, 1] } :=
  ⟨by decide, claim_C7.1 3 (by decide), claim_C7.2⟩

/-- Claim C4 counterexample: over GF(3^4) with field modulus x^4 + x + 2 and
input x^3 + 2x^2 + 1, the Euclidean sequence has quotients
Q = (x+1, x+2, 2x+1) and remainders ending in the constant 2; the Bezout
coefficient the code computes from Q differs from the value of the
specification recurrence s_i = q_i * s_(i-1) - s_(i-2), and only the code
value satisfies s * a = r_k modulo M:  the spec value leaves remainder 1, not
the final remainder 2.  The code's recurrence is s_i = s_(i-2) - q_i * s_(i-1). -/
theorem claim_C4_counterexample :
    FiniteFieldCalculator.compute_euclidean_sequence ⟨3, mkPoly 3 [2, 1, 0, 0, 1]⟩
        (mkPoly 3 [1, 0, 2, 1]) =
      .ok ([mkPoly 3 [1, 1], mkPoly 3 [2, 1], mkPoly 3 [1, 2]],
        [mkPoly 3 [1, 0, 1], mkPoly 3 [2, 2], mkPoly 3 [2]]) ∧
    specExpressionFromSequence 3 [mkPoly 3 [1, 1], mkPoly 3 [2, 1], mkPoly 3 [1, 2]] 3 ≠
      FiniteFieldCalculator.compute_expression_from_sequence 3
        [mkPoly 3 [1, 1], mkPoly 3 [2, 1], mkPoly 3 [1, 2]] 3 ∧
    ((ModularPolynomial.product_with
        (FiniteFieldCalculator.compute_expression_from_sequence 3
          [mkPoly 3 [1, 1], mkPoly 3 [2, 1], mkPoly 3 [1, 2]] 3)
        (mkPoly 3 [1, 0, 2, 1])).divided_by
      (mkPoly 3 [2, 1, 0, 0, 1])).remainder = mkPoly 3 [2] ∧
    ((ModularPolynomial.product_with
        (specExpressionFromSequence 3
          [mkPoly 3 [1, 1], mkPoly 3 [2, 1], mkPoly 3 [1, 2]] 3)
        (mkPoly 3 [1, 0, 2, 1])).divided_by
      (mkPoly 3 [2, 1, 0, 0, 1])).remainder ≠ mkPoly 3 [2] := by
  refine ⟨rfl, by decide, by decide, by decide⟩

/-- Claim C4 as amended: the implemented back-substitution recurrence is
s_i = s_(i-2) - q_i * s_(i-1) (the reverse subtraction order from the claim),
the returned Bezout coefficient is the last entry of the expression list, and
it does satisfy s * a = r_k modulo the field modulus M, r_k being the final
remainder of the Euclidean sequence. -/
theorem claim_C4_amended (fieldCalc : FiniteFieldCalculator) (a : ModularPolynomial)
    (qs rs : List ModularPolynomial)
    (hp : fieldCalc.prime_modulus.Prime)
    (hMc : Canonical fieldCalc.polynomial_modulus)
    (hMm : fieldCalc.polynomial_modulus.modulus = fieldCalc.prime_modulus)
    (hMnc : fieldCalc.polynomial_modulus.is_constant = false)
    (hac : Canonical a) (ham : a.modulus = fieldCalc.prime_modulus)
    (haz : a.is_zero = false)
    (hseq : fieldCalc.compute_euclidean_sequence a = .ok (qs, rs)) :
    (∀ i, 2 ≤ i → i < rs.length →
      (FiniteFieldCalculator.expressionList fieldCalc.prime_modulus qs rs.length).getD i
          ⟨fieldCalc.prime_modulus, [0]⟩ =
        ModularPolynomial.subtract_from
          (ModularPolynomial.product_with (qs.getD i ⟨fieldCalc.prime_modulus, [0]⟩)
            ((FiniteFieldCalculator.expressionList fieldCalc.prime_modulus qs
              rs.length).getD (i - 1) ⟨fieldCalc.prime_modulus, [0]⟩))
          ((FiniteFieldCalculator.expressionList fieldCalc.prime_modulus qs
            rs.length).getD (i - 2) ⟨fieldCalc.prime_modulus, [0]⟩)) ∧
    FiniteFieldCalculator.compute_expression_from_sequence fieldCalc.prime_modulus qs
        rs.length =
      (FiniteFieldCalculator.expressionList fieldCalc.prime_modulus qs rs.length).getLastD
        ⟨fieldCalc.prime_modulus, [0]⟩ ∧
    toPZ fieldCalc.prime_modulus fieldCalc.polynomial_modulus ∣
      (toPZ fieldCalc.prime_modulus
          (FiniteFieldCalculator.compute_expression_from_sequence fieldCalc.prime_modulus
            qs rs.length) *
          toPZ fieldCalc.prime_modulus a -
        toPZ fieldCalc.prime_modulus (rs.getLastD ⟨fieldCalc.prime_modulus, [0]⟩)) := by
  set m := fieldCalc.prime_modulus with hm
  have hMz : fieldCalc.polynomial_modulus.is_zero = false :=
    is_zero_false_of_not_constant _ hMnc
  obtain ⟨qs0, rs0, hok0, hchain0⟩ := euclideanLoop_spec m hp
    (a.get_degree + fieldCalc.polynomial_modulus.get_degree + 2)
    fieldCalc.polynomial_modulus a hMc hMm hac ham haz (by omega)
  rw [FiniteFieldCalculator.compute_euclidean_sequence] at hseq
  rw [hseq] at hok0
  injection hok0 with hok0
  rw [Prod.mk.injEq] at hok0
  obtain ⟨hq0, hr0⟩ := hok0
  subst hq0
  subst hr0
  obtain ⟨hlen, hqfacts, hrfacts, hlastconst⟩ := euclChain_facts m hp hchain0 hMc hMm hac ham haz
  have hqmod : ∀ q ∈ qs, q.modulus = m := fun q hq => (hqfacts q hq).2
  have hqne : qs ≠ [] := euclChain_qs_ne_nil hchain0
  refine ⟨?_, rfl, ?_⟩
  · intro i h1 h2
    have h3 : 3 ≤ rs.length := by omega
    have hq1 : 1 < qs.length := by omega
    set dummy : ModularPolynomial := (⟨m, [0]⟩ : ModularPolynomial) with hdummy
    set E1 : List ModularPolynomial :=
      [ModularPolynomial.get_negative (qs.getD 0 dummy)] ++
        [ModularPolynomial.add_one (ModularPolynomial.product_with (qs.getD 0 dummy)
          (qs.getD 1 dummy))] with hE1
    have hq0m : (qs.getD 0 dummy).modulus = m := hqmod _ (getD_mem_poly qs _ dummy (by omega))
    have hmodE1 : ∀ e ∈ E1, e.modulus = m := by
      intro e he
      rw [hE1, List.singleton_append] at he
      rcases List.mem_cons.1 he with he | he
      · subst he
        rw [get_negative_modulus, hq0m]
      · rw [List.mem_singleton] at he
        subst he
        rw [add_one_modulus, product_with_modulus, hq0m]
    have hexpr : FiniteFieldCalculator.expressionList m qs rs.length =
        FiniteFieldCalculator.exprLoop m qs (rs.length - 2) 2 E1 := by
      rw [FiniteFieldCalculator.expressionList, if_pos hq1]
    obtain ⟨g1, g2, g3, g4, g5⟩ := exprLoop_spec m qs hqmod (rs.length - 2) 2 E1
      (by omega) (by rw [hE1]; rfl) (by omega) hmodE1
    rw [hexpr]
    exact g4 i h1 (by omega)
  · have hbez := euclChain_bezout m hp hchain0 hMc hMm hac ham haz
    obtain ⟨hexprmod, hexprval⟩ := compute_expression_spec m qs hqmod hqne
    rw [hlen]
    refine ⟨-(bezoutFold m (1, 0) (qs.map (toPZ m))).2, ?_⟩
    rw [hexprval]
    linear_combination hbez

theorem claim_C4_amended_witness :
    Nat.Prime 3 ∧ Canonical (mkPoly 3 [2, 1, 0, 0, 1]) ∧
    (mkPoly 3 [2, 1, 0, 0, 1]).modulus = 3 ∧
    (mkPoly 3 [2, 1, 0, 0, 1]).is_constant = false ∧
    Canonical (mkPoly 3 [1, 0, 2, 1]) ∧ (mkPoly 3 [1, 0, 2, 1]).modulus = 3 ∧
    (mkPoly 3 [1, 0, 2, 1]).is_zero = false ∧
    FiniteFieldCalculator.compute_euclidean_sequence ⟨3, mkPoly 3 [2, 1, 0, 0, 1]⟩
        (mkPoly 3 [1, 0, 2, 1]) =
      .ok ([mkPoly 3 [1, 1], mkPoly 3 [2, 1], mkPoly 3 [1, 2]],
        [mkPoly 3 [1, 0, 1], mkPoly 3 [2, 2], mkPoly 3 [2]]) ∧
    (FiniteFieldCalculator.expressionList 3
        [mkPoly 3 [1, 1], mkPoly 3 [2, 1], mkPoly 3 [1, 2]] 3).getD 2 ⟨3, [0]⟩ =
      ModularPolynomial.subtract_from
        (ModularPolynomial.product_with
          ([mkPoly 3 [1, 1], mkPoly 3 [2, 1], mkPoly 3 [1, 2]].getD 2 ⟨3, [0]⟩)
          ((FiniteFieldCalculator.expressionList 3
            [mkPoly 3 [1, 1], mkPoly 3 [2, 1], mkPoly 3 [1, 2]] 3).getD 1 ⟨3, [0]⟩))
        ((FiniteFieldCalculator.expressionList 3
          [mkPoly 3 [1, 1], mkPoly 3 [2, 1], mkPoly 3 [1, 2]] 3).getD 0 ⟨3, [0]⟩) ∧
    toPZ 3 (mkPoly 3 [2, 1, 0, 0, 1]) ∣
      (toPZ 3 (FiniteFieldCalculator.compute_expression_from_sequence 3
            [mkPoly 3 [1, 1], mkPoly 3 [2, 1], mkPoly 3 [1, 2]] 3) *
          toPZ 3 (mkPoly 3 [1, 0, 2, 1]) -
        toPZ 3 ([mkPoly 3 [1, 0, 1], mkPoly 3 [2, 2], mkPoly 3 [2]].getLastD ⟨3, [0]⟩)) :=
  ⟨by norm_num, by decide, by decide, by decide, by decide, by decide, by decide, rfl,
    (claim_C4_amended ⟨3, mkPoly 3 [2, 1, 0, 0, 1]⟩ (mkPoly 3 [1, 0, 2, 1])
      [mkPoly 3 [1, 1], mkPoly 3 [2, 1], mkPoly 3 [1, 2]]
      [mkPoly 3 [1, 0, 1], mkPoly 3 [2, 2], mkPoly 3 [2]]
      (by norm_num) (by decide) (by decide) (by decide) (by decide) (by decide) (by decide)
      rfl).1 2 (by decide) (by decide),
    (claim_C4_amended ⟨3, mkPoly 3 [2, 1, 0, 0, 1]⟩ (mkPoly 3 [1, 0, 2, 1])
      [mkPoly 3 [1, 1], mkPoly 3 [2, 1], mkPoly 3 [1, 2]]
      [mkPoly 3 [1, 0, 1], mkPoly 3 [2, 2], mkPoly 3 [2]]
      (by norm_num) (by decide) (by decide) (by decide) (by decide) (by decide) (by decide)
      rfl).2.2⟩

/-- Claim C8: division by handle_operation fails exactly when the second
operand lifts to the zero polynomial, and otherwise returns the product of the
first operand with the inverse of the second, reduced by the field modulus,
raising no error. -/
theorem claim_C8 (fieldCalc : FiniteFieldCalculator) (c0 c1 : List ℤ)
    (hp : fieldCalc.prime_modulus.Prime)
    (hMc : Canonical fieldCalc.polynomial_modulus)
    (hMm : fieldCalc.polynomial_modulus.modulus = fieldCalc.prime_modulus)
    (hMnc : fieldCalc.polynomial_modulus.is_constant = false) :
    ((∃ e, fieldCalc.handle_operation c0 c1 .DIVIDE = .error e) ↔
      (mkPoly fieldCalc.prime_modulus c1).is_zero = true) ∧
    ((mkPoly fieldCalc.prime_modulus c1).is_zero = false →
      ∃ inv, fieldCalc.find_multiplicative_inverse (mkPoly fieldCalc.prime_modulus c1) =
          .ok inv ∧
        fieldCalc.handle_operation c0 c1 .DIVIDE =
          .ok ((ModularPolynomial.product_with (mkPoly fieldCalc.prime_modulus c0)
            inv).divided_by fieldCalc.polynomial_modulus).remainder) := by
  have hm1 : 1 ≤ fieldCalc.prime_modulus := le_of_lt hp.one_lt
  have hMz : fieldCalc.polynomial_modulus.is_zero = false :=
    is_zero_false_of_not_constant _ hMnc
  have hunfold : fieldCalc.handle_operation c0 c1 .DIVIDE =
      (if (mkPoly fieldCalc.prime_modulus c1).is_zero = true then
        .error "Cannot divide by zero polynomial"
      else do
        let polynomial1Inverse ← fieldCalc.find_multiplicative_inverse
          (mkPoly fieldCalc.prime_modulus c1)
        fieldCalc.reduce_by_modulus
          (ModularPolynomial.product_with (mkPoly fieldCalc.prime_modulus c0)
            polynomial1Inverse)) := rfl
  by_cases hz : (mkPoly fieldCalc.prime_modulus c1).is_zero = true
  · refine ⟨⟨fun _ => hz, fun _ => ⟨"Cannot divide by zero polynomial", ?_⟩⟩, fun hzf => ?_⟩
    · rw [hunfold, if_pos hz]
    · rw [hzf] at hz
      cases hz
  · have hzf : (mkPoly fieldCalc.prime_modulus c1).is_zero = false := by simpa using hz
    obtain ⟨inv, hinvok, hinvcan, hinvmod⟩ := find_inverse_ok fieldCalc
      (mkPoly fieldCalc.prime_modulus c1) hp hMc hMm hMnc (canonical_mkPoly _ _ hm1) rfl hzf
    have hred := reduce_by_modulus_ok fieldCalc
      (ModularPolynomial.product_with (mkPoly fieldCalc.prime_modulus c0) inv)
      (by rw [product_with_modulus, mkPoly_modulus, hMm]) hMc hMz
    have hok : fieldCalc.handle_operation c0 c1 .DIVIDE =
        .ok ((ModularPolynomial.product_with (mkPoly fieldCalc.prime_modulus c0)
          inv).divided_by fieldCalc.polynomial_modulus).remainder := by
      rw [hunfold, if_neg (by rw [hzf]; simp), hinvok]
      exact hred
    refine ⟨⟨fun he => ?_, fun h => ?_⟩, fun _ => ⟨inv, hinvok, hok⟩⟩
    · obtain ⟨e, he⟩ := he
      rw [hok] at he
      cases he
    · rw [hzf] at h
      cases h

theorem claim_C8_witness :
    Nat.Prime 2 ∧ Canonical (mkPoly 2 [1, 1, 1]) ∧
    (mkPoly 2 [1, 1, 1]).modulus = 2 ∧ (mkPoly 2 [1, 1, 1]).is_constant = false ∧
    (mkPoly 2 [1, 1]).is_zero = false ∧
    (∃ inv, FiniteFieldCalculator.find_multiplicative_inverse ⟨2, mkPoly 2 [1, 1, 1]⟩
        (mkPoly 2 [1, 1]) = .ok inv ∧
      FiniteFieldCalculator.handle_operation ⟨2, mkPoly 2 [1, 1, 1]⟩ [1] [1, 1] .DIVIDE =
        .ok ((ModularPolynomial.product_with (mkPoly 2 [1]) inv).divided_by
          (mkPoly 2 [1, 1, 1])).remainder) :=
  ⟨by norm_num, by decide, by decide, by decide, by decide,
    (claim_C8 ⟨2, mkPoly 2 [1, 1, 1]⟩ [1] [1, 1] (by norm_num) (by decide) (by decide)
      (by decide)).2 (by decide)⟩

theorem is_zero_coefficients (x : ModularPolynomial) (h : x.is_zero = true) :
    x.coefficients = [0] := by
  rw [ModularPolynomial.is_zero, beq_iff_eq] at h
  exact h

theorem is_zero_get_degree (x : ModularPolynomial) (h : x.is_zero = true) :
    x.get_degree = 0 := by
  rw [ModularPolynomial.get_degree, is_zero_coefficients x h]
  rfl

theorem mkPoly_x_eq (m : ℕ) (hm : 2 ≤ m) : mkPoly m [0, 1] = ⟨m, [0, 1]⟩ := by
  have h1 : (1 : ℤ) % (m : ℤ) = 1 :=
    Int.emod_eq_of_lt (by norm_num) (by exact_mod_cast hm)
  have hstrip : stripTrailing m [0, 1] = [0, 1] := by
    rw [stripTrailing]
    show (List.dropWhile _ [1, 0]).reverse = _
    rw [List.dropWhile_cons, if_neg (by simp [h1])]
    rfl
  rw [mkPoly]
  simp only [hstrip]
  rw [if_neg (by simp)]
  simp [h1]

theorem toPZ_mkPoly_x (m : ℕ) : toPZ m (mkPoly m [0, 1]) = Polynomial.X := by
  rw [toPZ_mkPoly]
  simp only [ofList]
  push_cast
  simp

theorem iterX_modulus (p : ℕ) : ∀ n, (iterX p n).modulus = p := by
  intro n
  induction n with
  | zero => rfl
  | succ n ih =>
      cases n with
      | zero => rfl
      | succ k =>
          rw [show iterX p (k + 1 + 1) =
            ModularPolynomial.product_with (iterX p (k + 1)) (mkPoly p [0, 1]) from rfl,
            product_with_modulus]
          exact ih

theorem iterX_canonical (p : ℕ) (hp : 1 ≤ p) : ∀ n, Canonical (iterX p n) := by
  intro n
  induction n with
  | zero => exact canonical_mkPoly _ _ hp
  | succ n ih =>
      cases n with
      | zero => exact canonical_mkPoly _ _ hp
      | succ k =>
          rw [show iterX p (k + 1 + 1) =
            ModularPolynomial.product_with (iterX p (k + 1)) (mkPoly p [0, 1]) from rfl]
          exact canonical_product_with _ _ (by rw [iterX_modulus]; exact hp)

theorem toPZ_iterX (p : ℕ) : ∀ n, toPZ p (iterX p n) = Polynomial.X ^ n := by
  intro n
  induction n with
  | zero =>
      show toPZ p (mkPoly p [1]) = _
      rw [toPZ_mkPoly]
      simp only [ofList]
      push_cast
      simp
  | succ n ih =>
      cases n with
      | zero =>
          show toPZ p (mkPoly p [0, 1]) = _
          rw [toPZ_mkPoly_x, pow_one]
      | succ k =>
          rw [show iterX p (k + 1 + 1) =
            ModularPolynomial.product_with (iterX p (k + 1)) (mkPoly p [0, 1]) from rfl,
            toPZ_product_with' p _ _ (iterX_modulus p (k + 1)), ih, toPZ_mkPoly_x]
          ring

theorem divided_by_spec' (m : ℕ) (hp : m.Prime) (x other : ModularPolynomial)
    (hm : x.modulus = m) (hxc : Canonical x) (hoc : Canonical other)
    (hmod : other.modulus = m) (hoz : other.is_zero = false) :
    (x.divided_by other).quotient.modulus = m ∧
    (x.divided_by other).remainder.modulus = m ∧
    Canonical (x.divided_by other).quotient ∧
    Canonical (x.divided_by other).remainder ∧
    toPZ m (x.divided_by other).quotient * toPZ m other +
        toPZ m (x.divided_by other).remainder = toPZ m x ∧
    ((x.divided_by other).remainder.is_zero = true ∨
      (x.divided_by other).remainder.get_degree < other.get_degree) := by
  subst hm
  exact divided_by_spec x other hp hxc hoc hmod hoz

theorem canonical_toPZ_inj' (m : ℕ) (x y : ModularPolynomial) (hx : Canonical x)
    (hy : Canonical y) (hxm : x.modulus = m) (hym : y.modulus = m)
    (h : toPZ m x = toPZ m y) : x = y := by
  subst hxm
  exact canonical_toPZ_inj x y hx hy (by rw [hym]) h

theorem congruence_unique (m : ℕ) (hp : m.Prime) (F r1 r2 c : Polynomial (ZMod m))
    (hF : F ≠ 0) (h1 : r1.degree < F.degree) (h2 : r2.degree < F.degree)
    (hc : r1 - r2 = F * c) : r1 = r2 := by
  haveI : Fact m.Prime := ⟨hp⟩
  by_cases hc0 : c = 0
  · have hz : r1 - r2 = 0 := by rw [hc, hc0, mul_zero]
    exact sub_eq_zero.1 hz
  · exfalso
    have hdeg : (F * c).degree = F.degree + c.degree := Polynomial.degree_mul
    have hcge : 0 ≤ c.degree := Polynomial.zero_le_degree_iff.2 hc0
    have hge : F.degree ≤ (F * c).degree := by
      rw [hdeg]
      exact le_add_of_nonneg_right hcge
    have hlt : (r1 - r2).degree < F.degree :=
      lt_of_le_of_lt (Polynomial.degree_sub_le r1 r2) (max_lt h1 h2)
    rw [hc] at hlt
    exact absurd hge (not_le.2 hlt)

theorem toPZ_degree_lt (m : ℕ) (r f : ModularPolynomial)
    (hrc : Canonical r) (hrm : r.modulus = m) (hfc : Canonical f) (hfm : f.modulus = m)
    (hfz : f.is_zero = false) (h : r.get_degree < f.get_degree) :
    (toPZ m r).degree < (toPZ m f).degree := by
  have hfd := (toPZ_natDegree' m f hfm hfc hfz).1
  have hfne : toPZ m f ≠ 0 := toPZ_ne_zero' m f hfm hfc hfz
  by_cases hrz : r.is_zero = true
  · have hz : toPZ m r = 0 := (is_zero_iff_toPZ' m r hrm hrc).1 hrz
    rw [hz, Polynomial.degree_zero]
    exact Ne.bot_lt (by rwa [Ne, Polynomial.degree_eq_bot])
  · have hrz' : r.is_zero = false := by simpa using hrz
    have hrd := (toPZ_natDegree' m r hrm hrc hrz').1
    have hrne : toPZ m r ≠ 0 := toPZ_ne_zero' m r hrm hrc hrz'
    rw [Polynomial.degree_eq_natDegree hrne, Polynomial.degree_eq_natDegree hfne, hrd, hfd]
    exact_mod_cast h

/-- The conditional reduction applied to the active expression after each
multiplication in compute_large_exponent_of_x: the result is canonical with
the same modulus, its degree is below the modulus polynomial's, and it is
congruent to the unreduced product modulo the modulus polynomial. -/
theorem reduce_step_facts (p : ℕ) (hp : p.Prime) (f a1 : ModularPolynomial)
    (hfm : f.modulus = p) (hfc : Canonical f) (hfz : f.is_zero = false)
    (hd1 : 1 ≤ f.get_degree) (ha1c : Canonical a1) (ha1m : a1.modulus = p) :
    Canonical (if f.get_degree ≤ a1.get_degree then (a1.divided_by f).remainder else a1) ∧
    (if f.get_degree ≤ a1.get_degree then (a1.divided_by f).remainder else a1).modulus = p ∧
    (if f.get_degree ≤ a1.get_degree then (a1.divided_by f).remainder else a1).get_degree <
      f.get_degree ∧
    toPZ p f ∣ (toPZ p a1 -
      toPZ p (if f.get_degree ≤ a1.get_degree then (a1.divided_by f).remainder else a1)) := by
  by_cases hcond : f.get_degree ≤ a1.get_degree
  · have ha2 : (if f.get_degree ≤ a1.get_degree then (a1.divided_by f).remainder else a1) =
        (a1.divided_by f).remainder := if_pos hcond
    rw [ha2]
    obtain ⟨g1, g2, g3, g4, g5, g6⟩ := divided_by_spec' p hp a1 f ha1m ha1c hfc hfm hfz
    refine ⟨g4, g2, ?_, ⟨toPZ p (a1.divided_by f).quotient, by linear_combination -g5⟩⟩
    rcases g6 with h | h
    · rw [is_zero_get_degree _ h]
      omega
    · exact h
  · have ha2 : (if f.get_degree ≤ a1.get_degree then (a1.divided_by f).remainder else a1) =
        a1 := if_neg hcond
    rw [ha2]
    exact ⟨ha1c, ha1m, by omega, by simp⟩

/-- Invariant of the compute_large_exponent_of_x loop: from a reduced active
expression congruent to x^power, a record of reduced expressions congruent to
the powers they are labelled with (containing the power 1), the tracked power
at least 1 and at most the target, and fuel at least target - power, the loop
returns a reduced canonical expression congruent to x^target modulo the
modulus polynomial. -/
theorem expLoop_invariant (p : ℕ) (hp : p.Prime) (f : ModularPolynomial)
    (hfm : f.modulus = p) (hfc : Canonical f) (hfz : f.is_zero = false)
    (hd : 2 ≤ f.get_degree) (target : ℕ) :
    ∀ (fuel : ℕ) (active : ModularPolynomial) (power : ℕ)
      (record : List (ModularPolynomial × ℕ)),
      Canonical active → active.modulus = p → active.get_degree < f.get_degree →
      (toPZ p f ∣ (Polynomial.X ^ power - toPZ p active)) →
      1 ≤ power → power ≤ target →
      (∀ e ∈ record, Canonical e.1 ∧ e.1.modulus = p ∧ 1 ≤ e.2 ∧
        (toPZ p f ∣ (Polynomial.X ^ e.2 - toPZ p e.1))) →
      (∃ e ∈ record, e.2 = 1) →
      target - power ≤ fuel →
      Canonical (expLoop f.get_degree f target fuel active power record) ∧
      (expLoop f.get_degree f target fuel active power record).modulus = p ∧
      (expLoop f.get_degree f target fuel active power record).get_degree < f.get_degree ∧
      (toPZ p f ∣ (Polynomial.X ^ target -
        toPZ p (expLoop f.get_degree f target fuel active power record))) := by
  intro fuel
  induction fuel with
  | zero =>
      intro active power record hac ham hadeg hadvd hp1 hple hrec hrec1 hfuel
      have hpt : power = target := by omega
      subst hpt
      exact ⟨hac, ham, hadeg, hadvd⟩
  | succ fuel ih =>
      intro active power record hac ham hadeg hadvd hp1 hple hrec hrec1 hfuel
      by_cases hlt : power < target
      · by_cases hov : target < 2 * power
        · -- lookup branch: find the largest recorded power that still fits
          cases hfind : record.reverse.find? (fun e => e.2 ≤ target - power) with
          | none =>
              exfalso
              obtain ⟨e1, he1mem, he1⟩ := hrec1
              have hnone := List.find?_eq_none.1 hfind e1 (List.mem_reverse.2 he1mem)
              apply hnone
              simp only [decide_eq_true_eq]
              omega
          | some e =>
              have hemem : e ∈ record :=
                List.mem_reverse.1 (List.mem_of_find?_eq_some hfind)
              have hele : e.2 ≤ target - power := by
                have := List.find?_some hfind
                simpa using this
              obtain ⟨hec, hem, he1le, hedvd⟩ := hrec e hemem
              have ha1c : Canonical (ModularPolynomial.product_with active e.1) :=
                canonical_product_with _ _ (by rw [ham]; exact le_of_lt hp.one_lt)
              have ha1m : (ModularPolynomial.product_with active e.1).modulus = p := by
                rw [product_with_modulus, ham]
              obtain ⟨h2c, h2m, h2deg, h2dvd⟩ := reduce_step_facts p hp f
                (ModularPolynomial.product_with active e.1) hfm hfc hfz (by omega) ha1c ha1m
              have hstep : expLoop f.get_degree f target (fuel + 1) active power record =
                  expLoop f.get_degree f target fuel
                    (if f.get_degree ≤ (ModularPolynomial.product_with active e.1).get_degree
                      then ((ModularPolynomial.product_with active e.1).divided_by f).remainder
                      else ModularPolynomial.product_with active e.1)
                    (power + e.2) record := by
                rw [expLoop, if_pos hlt, if_pos hov, hfind]
              rw [hstep]
              apply ih _ (power + e.2) record h2c h2m h2deg ?_ (by omega) (by omega)
                hrec hrec1 (by omega)
              have ha1val : toPZ p (ModularPolynomial.product_with active e.1) =
                  toPZ p active * toPZ p e.1 := toPZ_product_with' p _ _ ham
              have hcongr : (Polynomial.X : Polynomial (ZMod p)) ^ (power + e.2) -
                  toPZ p
                    (if f.get_degree ≤ (ModularPolynomial.product_with active e.1).get_degree
                      then ((ModularPolynomial.product_with active e.1).divided_by f).remainder
                      else ModularPolynomial.product_with active e.1) =
                  (Polynomial.X ^ power - toPZ p active) * Polynomial.X ^ e.2 +
                    toPZ p active * (Polynomial.X ^ e.2 - toPZ p e.1) +
                    (toPZ p (ModularPolynomial.product_with active e.1) -
                      toPZ p
                        (if f.get_degree ≤
                            (ModularPolynomial.product_with active e.1).get_degree
                          then ((ModularPolynomial.product_with active e.1).divided_by
                            f).remainder
                          else ModularPolynomial.product_with active e.1)) := by
                rw [ha1val, pow_add]
                ring
              rw [hcongr]
              exact dvd_add (dvd_add (Dvd.dvd.mul_right hadvd _)
                (Dvd.dvd.mul_left hedvd _)) h2dvd
        · -- squaring branch
          have ha1c : Canonical (ModularPolynomial.product_with active active) :=
            canonical_product_with _ _ (by rw [ham]; exact le_of_lt hp.one_lt)
          have ha1m : (ModularPolynomial.product_with active active).modulus = p := by
            rw [product_with_modulus, ham]
          obtain ⟨h2c, h2m, h2deg, h2dvd⟩ := reduce_step_facts p hp f
            (ModularPolynomial.product_with active active) hfm hfc hfz (by omega) ha1c ha1m
          have ha1val : toPZ p (ModularPolynomial.product_with active active) =
              toPZ p active * toPZ p active := toPZ_product_with' p _ _ ham
          have hcongr : (Polynomial.X : Polynomial (ZMod p)) ^ (2 * power) -
              toPZ p
                (if f.get_degree ≤ (ModularPolynomial.product_with active active).get_degree
                  then ((ModularPolynomial.product_with active active).divided_by f).remainder
                  else ModularPolynomial.product_with active active) =
              (Polynomial.X ^ power - toPZ p active) *
                  (Polynomial.X ^ power + toPZ p active) +
                (toPZ p (ModularPolynomial.product_with active active) -
                  toPZ p
                    (if f.get_degree ≤
                        (ModularPolynomial.product_with active active).get_degree
                      then ((ModularPolynomial.product_with active active).divided_by
                        f).remainder
                      else ModularPolynomial.product_with active active)) := by
            rw [ha1val, two_mul, pow_add]
            ring
          have hdvdnew : toPZ p f ∣ ((Polynomial.X : Polynomial (ZMod p)) ^ (2 * power) -
              toPZ p
                (if f.get_degree ≤ (ModularPolynomial.product_with active active).get_degree
                  then ((ModularPolynomial.product_with active active).divided_by f).remainder
                  else ModularPolynomial.product_with active active)) := by
            rw [hcongr]
            exact dvd_add (Dvd.dvd.mul_right hadvd _) h2dvd
          have hcopy : ModularPolynomial.get_copy
              (if f.get_degree ≤ (ModularPolynomial.product_with active active).get_degree
                then ((ModularPolynomial.product_with active active).divided_by f).remainder
                else ModularPolynomial.product_with active active) =
              (if f.get_degree ≤ (ModularPolynomial.product_with active active).get_degree
                then ((ModularPolynomial.product_with active active).divided_by f).remainder
                else ModularPolynomial.product_with active active) :=
            mkPoly_canonical_fixed _ h2c
          have hstep : expLoop f.get_degree f target (fuel + 1) active power record =
              expLoop f.get_degree f target fuel
                (if f.get_degree ≤ (ModularPolynomial.product_with active active).get_degree
                  then ((ModularPolynomial.product_with active active).divided_by f).remainder
                  else ModularPolynomial.product_with active active)
                (2 * power)
                (record ++ [(ModularPolynomial.get_copy
                  (if f.get_degree ≤
                      (ModularPolynomial.product_with active active).get_degree
                    then ((ModularPolynomial.product_with active active).divided_by
                      f).remainder
                    else ModularPolynomial.product_with active active), 2 * power)]) := by
            rw [expLoop, if_pos hlt, if_neg hov]
          rw [hstep]
          apply ih _ (2 * power) _ h2c h2m h2deg hdvdnew (by omega) (by omega) ?_ ?_ (by omega)
          · intro e' he'
            rcases List.mem_append.1 he' with he' | he'
            · exact hrec e' he'
            · rw [List.mem_singleton] at he'
              subst he'
              refine ⟨?_, ?_, by omega, ?_⟩
              · show Canonical (ModularPolynomial.get_copy _)
                rw [hcopy]
                exact h2c
              · show (ModularPolynomial.get_copy _).modulus = p
                rw [hcopy]
                exact h2m
              · show toPZ p f ∣ (Polynomial.X ^ (2 * power) -
                  toPZ p (ModularPolynomial.get_copy _))
                rw [hcopy]
                exact hdvdnew
          · obtain ⟨e1, he1mem, he1⟩ := hrec1
            exact ⟨e1, List.mem_append_left _ he1mem, he1⟩
      · have hstep : expLoop f.get_degree f target (fuel + 1) active power record =
            active := by
          rw [expLoop, if_neg hlt]
        have hpt : power = target := by omega
        subst hpt
        rw [hstep]
        exact ⟨hac, ham, hadeg, hadvd⟩

/-- Claim C5: for a target power of at least 1 and a modulus polynomial of
degree at least 2 over a prime modulus, the fast exponentiation
compute_large_exponent_of_x returns exactly the remainder of the N-fold
iterated product x * x * ... * x upon Euclidean division by the modulus
polynomial. -/
theorem claim_C5 (N : ℕ) (f : ModularPolynomial) (hN : 1 ≤ N)
    (hp : f.modulus.Prime) (hf : Canonical f) (hd : 2 ≤ f.get_degree) :
    compute_large_exponent_of_x N f = ((iterX f.modulus N).divided_by f).remainder := by
  have h2 : 2 ≤ f.modulus := hp.two_le
  have hfz : f.is_zero = false := by
    by_contra hcon
    have hzt : f.is_zero = true := by simpa using hcon
    have := is_zero_get_degree f hzt
    omega
  have hx_can : Canonical (mkPoly f.modulus [0, 1]) := canonical_mkPoly _ _ (by omega)
  have hx_toPZ : toPZ f.modulus (mkPoly f.modulus [0, 1]) = Polynomial.X :=
    toPZ_mkPoly_x f.modulus
  have hx_deg : (mkPoly f.modulus [0, 1]).get_degree = 1 := by
    rw [mkPoly_x_eq f.modulus h2]
    rfl
  have hcopy : ModularPolynomial.get_copy (mkPoly f.modulus [0, 1]) =
      mkPoly f.modulus [0, 1] := mkPoly_canonical_fixed _ hx_can
  have hcle : compute_large_exponent_of_x N f =
      expLoop f.get_degree f N N (mkPoly f.modulus [0, 1]) 1
        [(ModularPolynomial.get_copy (mkPoly f.modulus [0, 1]), 1)] := rfl
  obtain ⟨hr1, hr2, hr3, hr4⟩ := expLoop_invariant f.modulus hp f rfl hf hfz hd N N
    (mkPoly f.modulus [0, 1]) 1 [(ModularPolynomial.get_copy (mkPoly f.modulus [0, 1]), 1)]
    hx_can rfl (by omega)
    (by rw [hx_toPZ, pow_one, sub_self]; exact dvd_zero _)
    (le_refl 1) hN
    (by
      intro e he
      rw [List.mem_singleton] at he
      subst he
      refine ⟨?_, ?_, le_refl 1, ?_⟩
      · show Canonical (ModularPolynomial.get_copy _)
        rw [hcopy]
        exact hx_can
      · show (ModularPolynomial.get_copy _).modulus = f.modulus
        rw [hcopy]
        rfl
      · show toPZ f.modulus f ∣ (Polynomial.X ^ 1 -
          toPZ f.modulus (ModularPolynomial.get_copy _))
        rw [hcopy, hx_toPZ, pow_one, sub_self]
        exact dvd_zero _)
    ⟨_, List.mem_singleton.2 rfl, rfl⟩
    (by omega)
  have hIc : Canonical (iterX f.modulus N) := iterX_canonical f.modulus (by omega) N
  have hIm : (iterX f.modulus N).modulus = f.modulus := iterX_modulus f.modulus N
  have hItoPZ : toPZ f.modulus (iterX f.modulus N) = Polynomial.X ^ N :=
    toPZ_iterX f.modulus N
  obtain ⟨g1, g2, g3, g4, g5, g6⟩ := divided_by_spec' f.modulus hp (iterX f.modulus N) f
    hIm hIc hf rfl hfz
  have hRdeg : ((iterX f.modulus N).divided_by f).remainder.get_degree < f.get_degree := by
    rcases g6 with h | h
    · rw [is_zero_get_degree _ h]
      omega
    · exact h
  have hdvdR : toPZ f.modulus f ∣ ((Polynomial.X : Polynomial (ZMod f.modulus)) ^ N -
      toPZ f.modulus ((iterX f.modulus N).divided_by f).remainder) := by
    refine ⟨toPZ f.modulus ((iterX f.modulus N).divided_by f).quotient, ?_⟩
    rw [← hItoPZ]
    linear_combination -g5
  have hveq : ((Polynomial.X : Polynomial (ZMod f.modulus)) ^ N -
        toPZ f.modulus ((iterX f.modulus N).divided_by f).remainder) -
      ((Polynomial.X : Polynomial (ZMod f.modulus)) ^ N -
        toPZ f.modulus (compute_large_exponent_of_x N f)) =
      toPZ f.modulus (compute_large_exponent_of_x N f) -
        toPZ f.modulus ((iterX f.modulus N).divided_by f).remainder := by
    ring
  have hr4' : toPZ f.modulus f ∣ ((Polynomial.X : Polynomial (ZMod f.modulus)) ^ N -
      toPZ f.modulus (compute_large_exponent_of_x N f)) := by
    rw [hcle]
    exact hr4
  have hsubdvd : toPZ f.modulus f ∣
      (toPZ f.modulus (compute_large_exponent_of_x N f) -
        toPZ f.modulus ((iterX f.modulus N).divided_by f).remainder) := by
    rw [← hveq]
    exact dvd_sub hdvdR hr4'
  obtain ⟨c, hc⟩ := hsubdvd
  have hFne : toPZ f.modulus f ≠ 0 := toPZ_ne_zero' f.modulus f rfl hf hfz
  have hdL : (toPZ f.modulus (compute_large_exponent_of_x N f)).degree <
      (toPZ f.modulus f).degree := by
    rw [hcle]
    exact toPZ_degree_lt f.modulus _ f hr1 hr2 hf rfl hfz hr3
  have hdR : (toPZ f.modulus ((iterX f.modulus N).divided_by f).remainder).degree <
      (toPZ f.modulus f).degree :=
    toPZ_degree_lt f.modulus _ f g4 g2 hf rfl hfz hRdeg
  have heq : toPZ f.modulus (compute_large_exponent_of_x N f) =
      toPZ f.modulus ((iterX f.modulus N).divided_by f).remainder :=
    congruence_unique f.modulus hp (toPZ f.modulus f) _ _ c hFne hdL hdR hc
  refine canonical_toPZ_inj' f.modulus _ _ ?_ g4 ?_ g2 heq
  · rw [hcle]
    exact hr1
  · rw [hcle]
    exact hr2

theorem claim_C5_witness :
    (1 : ℕ) ≤ 5 ∧ Nat.Prime (mkPoly 2 [1, 1, 0, 1]).modulus ∧
    Canonical (mkPoly 2 [1, 1, 0, 1]) ∧ 2 ≤ (mkPoly 2 [1, 1, 0, 1]).get_degree ∧
    compute_large_exponent_of_x 5 (mkPoly 2 [1, 1, 0, 1]) =
      ((iterX (mkPoly 2 [1, 1, 0, 1]).modulus 5).divided_by
        (mkPoly 2 [1, 1, 0, 1])).remainder :=
  ⟨by decide, by decide, by decide, by decide,
    claim_C5 5 (mkPoly 2 [1, 1, 0, 1]) (by decide) (by decide) (by decide) (by decide)⟩

theorem coefficientTuples_complete (m : ℕ) :
    ∀ (k : ℕ) (cs : List ℤ), cs.length = k → (∀ c ∈ cs, 0 ≤ c ∧ c < (m : ℤ)) →
      cs ∈ coefficientTuples m k := by
  intro k
  induction k with
  | zero =>
      intro cs h1 h2
      rw [List.length_eq_zero] at h1
      subst h1
      simp [coefficientTuples]
  | succ k ih =>
      intro cs h1 h2
      cases cs with
      | nil => simp at h1
      | cons a t =>
          have ha := h2 a (List.mem_cons_self a t)
          have hna : a.toNat < m := by omega
          have ht : t ∈ coefficientTuples m k := by
            apply ih t (by simp only [List.length_cons] at h1; omega)
            intro c hc
            exact h2 c (List.mem_cons_of_mem _ hc)
          rw [coefficientTuples, List.mem_flatMap]
          refine ⟨a.toNat, List.mem_range.2 hna, ?_⟩
          rw [List.mem_map]
          refine ⟨t, ht, ?_⟩
          rw [Int.toNat_of_nonneg ha.1]

/-- Claim C6: for a polynomial whose degree is 6, 10 or 12, a true result from
check_if_irreducible guarantees that no monic polynomial of degree 1 or 2 over
the coefficient field leaves a zero remainder when dividing it; and the
trial-division fallback is combined into the result exactly for those three
degrees, every other degree returning the base degree-dispatched test alone. -/
theorem claim_C6 (f : ModularPolynomial) (cs : List ℤ) :
    ((f.get_degree = 6 ∨ f.get_degree = 10 ∨ f.get_degree = 12) →
      check_if_irreducible f = true →
      (cs.length = 1 ∨ cs.length = 2) →
      (∀ c ∈ cs, 0 ≤ c ∧ c < (f.modulus : ℤ)) →
      (f.divided_by (mkPoly f.modulus (cs ++ [1]))).remainder.is_zero = false) ∧
    ((f.get_degree = 6 ∨ f.get_degree = 10 ∨ f.get_degree = 12) →
      check_if_irreducible f =
        (baseDegreeCheck f f.get_degree && check_non_prime_power_degree f)) ∧
    (¬(f.get_degree = 6 ∨ f.get_degree = 10 ∨ f.get_degree = 12) →
      check_if_irreducible f = baseDegreeCheck f f.get_degree) := by
  refine ⟨?_, ?_, ?_⟩
  · intro hdeg hcheck hlen hbound
    rw [check_if_irreducible] at hcheck
    by_cases hbase : baseDegreeCheck f f.get_degree = false
    · rw [if_pos hbase] at hcheck
      cases hcheck
    · rw [if_neg hbase, if_pos hdeg] at hcheck
      rw [check_non_prime_power_degree, List.all_eq_true] at hcheck
      have hmem1 : cs.length ∈ ([1, 2] : List ℕ) := by
        rcases hlen with h | h <;> simp [h]
      have hinner := hcheck cs.length hmem1
      rw [List.all_eq_true] at hinner
      have hmem2 : cs ++ [(1 : ℤ)] ∈
          (coefficientTuples f.modulus cs.length).map (fun coeffs => coeffs ++ [(1 : ℤ)]) :=
        List.mem_map.2 ⟨cs, coefficientTuples_complete f.modulus cs.length cs rfl hbound,
          rfl⟩
      have := hinner _ hmem2
      simpa using this
  · intro hdeg
    rw [check_if_irreducible]
    by_cases hbase : baseDegreeCheck f f.get_degree = false
    · rw [if_pos hbase, hbase, Bool.false_and]
    · have hbase' : baseDegreeCheck f f.get_degree = true := by
        simpa using hbase
      rw [if_neg hbase, if_pos hdeg, hbase', Bool.true_and]
  · intro hdeg
    rw [check_if_irreducible]
    by_cases hbase : baseDegreeCheck f f.get_degree = false
    · rw [if_pos hbase, hbase]
    · have hbase' : baseDegreeCheck f f.get_degree = true := by
        simpa using hbase
      rw [if_neg hbase, if_neg hdeg, hbase']

theorem claim_C6_witness :
    ((mkPoly 2 [1, 1, 0, 0, 0, 0, 1]).get_degree = 6 ∨
      (mkPoly 2 [1, 1, 0, 0, 0, 0, 1]).get_degree = 10 ∨
      (mkPoly 2 [1, 1, 0, 0, 0, 0, 1]).get_degree = 12) ∧
    check_if_irreducible (mkPoly 2 [1, 1, 0, 0, 0, 0, 1]) = true ∧
    (([1] : List ℤ).length = 1 ∨ ([1] : List ℤ).length = 2) ∧
    (∀ c ∈ ([1] : List ℤ), 0 ≤ c ∧ c < ((mkPoly 2 [1, 1, 0, 0, 0, 0, 1]).modulus : ℤ)) ∧
    ((mkPoly 2 [1, 1, 0, 0, 0, 0, 1]).divided_by
      (mkPoly (mkPoly 2 [1, 1, 0, 0, 0, 0, 1]).modulus
        ([1] ++ [1]))).remainder.is_zero = false ∧
    check_if_irreducible (mkPoly 2 [1, 1, 0, 0, 0, 0, 1]) =
      (baseDegreeCheck (mkPoly 2 [1, 1, 0, 0, 0, 0, 1])
          (mkPoly 2 [1, 1, 0, 0, 0, 0, 1]).get_degree &&
        check_non_prime_power_degree (mkPoly 2 [1, 1, 0, 0, 0, 0, 1])) ∧
    ¬((mkPoly 2 [1, 1, 1]).get_degree = 6 ∨ (mkPoly 2 [1, 1, 1]).get_degree = 10 ∨
      (mkPoly 2 [1, 1, 1]).get_degree = 12) ∧
    check_if_irreducible (mkPoly 2 [1, 1, 1]) =
      baseDegreeCheck (mkPoly 2 [1, 1, 1]) (mkPoly 2 [1, 1, 1]).get_degree :=
  ⟨by decide, by decide, by decide, by decide,
    (claim_C6 (mkPoly 2 [1, 1, 0, 0, 0, 0, 1]) [1]).1 (by decide) (by decide) (by decide)
      (by decide),
    (claim_C6 (mkPoly 2 [1, 1, 0, 0, 0, 0, 1]) [1]).2.1 (by decide),
    by decide,
    (claim_C6 (mkPoly 2 [1, 1, 1]) []).2.2 (by decide)⟩

end FFCalc
